import Mathlib

/-!
Shallow embedding of the core of the Migrated-token-tracker repository:
the candle aggregator (`src/services/candleManager.js`), the strategy
evaluator (`strategy.js`), the backfill retry queue (`backfillQueue.js`),
the candle storage layer (`storage.js`) and the dedup gate of the
discovery loop (`src/scripts/analyze_all_tokens.js`).

JavaScript numbers are modelled as rationals (`ℚ`); a possibly-NaN number
is modelled as `Option ℚ` with `none` playing the role of `NaN`.
JavaScript `Map`s are modelled as insertion-ordered association lists,
`Set`s as `Finset`s, and the MongoDB collections as lists of records with
the uniqueness constraints of the code's indexes made explicit.
-/

/-- `v || 0` on a JS number: `NaN` (here `none`) and `0` are falsy. -/
def orZero : Option ℚ → ℚ
  | none => 0
  | some v => v

/-- Lookup of the first entry with the given key in an insertion-ordered
association list (JS `Map.get`; `none` plays the role of `undefined`). -/
def alookup (a : String) : List (String × β) → Option β
  | [] => none
  | (k, v) :: rest => if k = a then some v else alookup a rest

/-- JS `Map.set`: replace the value of the first entry with the key, or
append a fresh entry when the key is absent. -/
def aset (a : String) (v : β) : List (String × β) → List (String × β)
  | [] => [(a, v)]
  | (k, w) :: rest => if k = a then (k, v) :: rest else (k, w) :: aset a v rest

/-- JS `Map.delete`. -/
def adel (a : String) : List (String × β) → List (String × β)
  | [] => []
  | (k, w) :: rest => if k = a then rest else (k, w) :: adel a rest

namespace CandleManager

/-- Token metadata passed to `addToken` (`{ symbol, name, poolAddress }`,
any field may be missing). -/
structure Meta where
  symbol : Option String := none
  name : Option String := none
  poolAddress : Option String := none
  launchedAt : Option Int := none
  deriving Repr, DecidableEq

/-- In-progress candle buffer: `{ open, high, low, close, volume, tradeCount }`
(`open` is a Lean keyword, hence the field name `open_`). -/
structure CandleBuf where
  open_ : ℚ
  high : ℚ
  low : ℚ
  close : ℚ
  volume : ℚ
  tradeCount : ℕ
  deriving Repr, DecidableEq

/-- Candle emitted by `closeCandlesFor`. -/
structure MCandle where
  tokenAddress : String
  poolAddress : Option String
  symbol : String
  timestamp : ℤ
  open_ : ℚ
  high : ℚ
  low : ℚ
  close : ℚ
  volume : ℚ
  tradeCount : ℕ
  deriving Repr, DecidableEq

/-- State of the `CandleManager` singleton: the three JS `Map`s.
A buffer value of `none` is the JS `null` ("waiting for first trade"). -/
structure CMState where
  tracked : List (String × Meta)
  buffers : List (String × Option CandleBuf)
  lastPrices : List (String × ℚ)
  deriving Repr, DecidableEq

/-- `addToken(tokenAddress, meta)`: no-op when already tracked, else
register the token and create a `null` buffer. -/
def addToken (a : String) (meta : Meta) (s : CMState) : CMState :=
  if (alookup a s.tracked).isSome then s
  else { s with tracked := aset a meta s.tracked, buffers := aset a none s.buffers }

/-- `removeToken(tokenAddress)`. -/
def removeToken (a : String) (s : CMState) : CMState :=
  { tracked := adel a s.tracked, buffers := adel a s.buffers,
    lastPrices := adel a s.lastPrices }

/-- `getLastPrice(tokenAddress)` (`|| null` turns a cached `0` into `null`;
prices in the cache are always `> 0`, so the model keeps the raw lookup). -/
def getLastPrice (a : String) (s : CMState) : Option ℚ :=
  alookup a s.lastPrices

/-- `addTrade(tokenAddress, price, volume)`.  The `price` argument is
`none` when the JS value is `NaN`.  Result `none` models the JS
`TypeError` thrown when a token is tracked but has no buffer-map entry
(`buffers.get` returns `undefined` and `buf.high` dereferences it);
states built by `addToken`/`removeToken` never reach that branch. -/
def addTrade (a : String) (price volume : Option ℚ) (s : CMState) : Option CMState :=
  if (alookup a s.tracked).isNone then some s
  else match price with
    | none => some s
    | some p =>
      if p ≤ 0 then some s
      else match alookup a s.buffers with
        | none => none
        | some bufOpt =>
          let s1 := { s with lastPrices := aset a p s.lastPrices }
          match bufOpt with
          | none =>
            let fresh : CandleBuf :=
              { open_ := p, high := p, low := p, close := p,
                volume := orZero volume, tradeCount := 1 }
            some { s1 with buffers := aset a (some fresh) s1.buffers }
          | some buf =>
            let upd : CandleBuf :=
              { open_ := buf.open_, high := max buf.high p,
                low := min buf.low p, close := p,
                volume := buf.volume + orZero volume,
                tradeCount := buf.tradeCount + 1 }
            some { s1 with buffers := aset a (some upd) s1.buffers }

/-- Candle built from a buffer when a period closes. -/
def mkCandle (a : String) (meta : Meta) (ts : ℤ) (buf : CandleBuf) : MCandle :=
  { tokenAddress := a, poolAddress := meta.poolAddress,
    symbol := meta.symbol.getD "", timestamp := ts,
    open_ := buf.open_, high := buf.high, low := buf.low, close := buf.close,
    volume := buf.volume, tradeCount := buf.tradeCount }

/-- `closeCandlesFor(candleTimestamp)`: emit one candle per non-`null`
buffer (in map iteration order) and reset every buffer to `null`. -/
def closeCandlesFor (ts : ℤ) (s : CMState) : List MCandle × CMState :=
  (s.buffers.filterMap (fun kb =>
     kb.2.map (fun buf => mkCandle kb.1 ((alookup kb.1 s.tracked).getD {}) ts buf)),
   { s with buffers := s.buffers.map (fun kb => (kb.1, (none : Option CandleBuf))) })

/-- Feed a list of `(price, volume)` samples for one token through
`addTrade` (the JS caller passes plain numbers, never `NaN`). -/
def feedSamples (a : String) (samples : List (ℚ × ℚ)) (s : CMState) : Option CMState :=
  samples.foldlM (fun st pv => addTrade a (some pv.1) (some pv.2) st) s

/-- Pure evolution of a single buffer under a list of samples (the
"subsequent samples" arm of `addTrade`). -/
def extendBuf (buf : CandleBuf) (pv : ℚ × ℚ) : CandleBuf :=
  { open_ := buf.open_, high := max buf.high pv.1, low := min buf.low pv.1,
    close := pv.1, volume := buf.volume + pv.2, tradeCount := buf.tradeCount + 1 }

/-- Buffer reached from `b` after folding a list of samples. -/
def bufAfter (b : CandleBuf) (l : List (ℚ × ℚ)) : CandleBuf :=
  l.foldl extendBuf b

theorem bufAfter_nil (b : CandleBuf) : bufAfter b [] = b := rfl

theorem bufAfter_cons (b : CandleBuf) (pv : ℚ × ℚ) (l : List (ℚ × ℚ)) :
    bufAfter b (pv :: l) = bufAfter (extendBuf b pv) l := rfl

theorem bufAfter_open (b : CandleBuf) (l : List (ℚ × ℚ)) :
    (bufAfter b l).open_ = b.open_ := by
  induction l generalizing b with
  | nil => rfl
  | cons pv l ih => rw [bufAfter_cons, ih]; rfl

theorem bufAfter_high (b : CandleBuf) (l : List (ℚ × ℚ)) :
    (bufAfter b l).high = (l.map (·.1)).foldl max b.high := by
  induction l generalizing b with
  | nil => rfl
  | cons pv l ih => rw [bufAfter_cons, ih]; rfl

theorem bufAfter_low (b : CandleBuf) (l : List (ℚ × ℚ)) :
    (bufAfter b l).low = (l.map (·.1)).foldl min b.low := by
  induction l generalizing b with
  | nil => rfl
  | cons pv l ih => rw [bufAfter_cons, ih]; rfl

theorem bufAfter_close (b : CandleBuf) (l : List (ℚ × ℚ)) :
    (bufAfter b l).close = (l.map (·.1)).getLastD b.close := by
  induction l generalizing b with
  | nil => rfl
  | cons pv l ih =>
    rw [bufAfter_cons, ih]
    cases l with
    | nil => rfl
    | cons q l =>
      simp only [List.map_cons, List.getLastD_cons, extendBuf]

theorem bufAfter_volume (b : CandleBuf) (l : List (ℚ × ℚ)) :
    (bufAfter b l).volume = b.volume + (l.map (·.2)).sum := by
  induction l generalizing b with
  | nil => simp [bufAfter_nil]
  | cons pv l ih =>
    rw [bufAfter_cons, ih]
    simp [extendBuf]
    ring

theorem bufAfter_tradeCount (b : CandleBuf) (l : List (ℚ × ℚ)) :
    (bufAfter b l).tradeCount = b.tradeCount + l.length := by
  induction l generalizing b with
  | nil => rfl
  | cons pv l ih =>
    rw [bufAfter_cons, ih]
    simp [extendBuf]
    omega

theorem alookup_aset_self (a : String) (v : β) (l : List (String × β)) :
    alookup a (aset a v l) = some v := by
  induction l with
  | nil => simp [aset, alookup]
  | cons kv l ih =>
    by_cases h : kv.1 = a
    · simp [aset, alookup, h]
    · simp [aset, alookup, h, ih]

/-- A valid trade on a token that is tracked and has an in-progress buffer. -/
theorem addTrade_extend (s : CMState) (a : String) (p v : ℚ) (b : CandleBuf)
    (htr : (alookup a s.tracked).isSome) (hb : alookup a s.buffers = some (some b))
    (hp : 0 < p) :
    addTrade a (some p) (some v) s =
      some { s with buffers := aset a (some (extendBuf b (p, v))) s.buffers,
                    lastPrices := aset a p s.lastPrices } := by
  rw [addTrade]
  rw [if_neg (by simp [Option.isNone_iff_eq_none]; exact Option.isSome_iff_ne_none.mp htr)]
  rw [if_neg (not_le.mpr hp), hb]
  rfl

/-- A valid trade on a tracked token whose buffer is `null` opens the buffer. -/
theorem addTrade_first (s : CMState) (a : String) (p v : ℚ)
    (htr : (alookup a s.tracked).isSome) (hb : alookup a s.buffers = some none)
    (hp : 0 < p) :
    addTrade a (some p) (some v) s =
      some { s with
              buffers := aset a (some { open_ := p, high := p, low := p, close := p,
                                        volume := v, tradeCount := 1 }) s.buffers,
              lastPrices := aset a p s.lastPrices } := by
  rw [addTrade]
  rw [if_neg (by simp [Option.isNone_iff_eq_none]; exact Option.isSome_iff_ne_none.mp htr)]
  rw [if_neg (not_le.mpr hp), hb]
  rfl

/-- Folding valid samples for one token from a `some`-buffer state succeeds
and accumulates the buffer pointwise by `extendBuf`. -/
theorem feedSamples_from_buf (a : String) :
    ∀ (l : List (ℚ × ℚ)) (s : CMState) (b : CandleBuf),
    (alookup a s.tracked).isSome → alookup a s.buffers = some (some b) →
    (∀ pv ∈ l, 0 < pv.1) →
    ∃ s', feedSamples a l s = some s' ∧ s'.tracked = s.tracked ∧
      alookup a s'.buffers = some (some (bufAfter b l)) := by
  intro l
  induction l with
  | nil => exact fun s b htr hb _ => ⟨s, rfl, rfl, by rw [hb, bufAfter_nil]⟩
  | cons pv rest ih =>
    intro s b htr hb hval
    have hstep := addTrade_extend s a pv.1 pv.2 b htr hb (hval pv (by simp))
    have hnext : feedSamples a (pv :: rest) s =
        feedSamples a rest { s with buffers := aset a (some (extendBuf b pv)) s.buffers,
                                    lastPrices := aset a pv.1 s.lastPrices } := by
      simp only [feedSamples, List.foldlM_cons]
      rw [hstep]
      rfl
    obtain ⟨s', h1, h2, h3⟩ :=
      ih { s with buffers := aset a (some (extendBuf b pv)) s.buffers,
                  lastPrices := aset a pv.1 s.lastPrices }
         (extendBuf b pv) htr (alookup_aset_self a _ s.buffers)
         (fun q hq => hval q (by simp [hq]))
    exact ⟨s', by rw [hnext]; exact h1, h2, by rw [h3, bufAfter_cons]⟩

/-- In the list of candles emitted by a period close, the first candle of a
token whose buffer is non-`null` is exactly that buffer's candle. -/
theorem find_emitted (a : String) (tr : List (String × Meta)) (ts : ℤ) (buf : CandleBuf) :
    ∀ bl : List (String × Option CandleBuf), alookup a bl = some (some buf) →
    (bl.filterMap (fun kb =>
        kb.2.map (fun b => mkCandle kb.1 ((alookup kb.1 tr).getD {}) ts b))).find?
      (fun c => c.tokenAddress == a)
    = some (mkCandle a ((alookup a tr).getD {}) ts buf) := by
  intro bl
  induction bl with
  | nil => intro h; simp [alookup] at h
  | cons kb bl ih =>
    obtain ⟨k, b2⟩ := kb
    intro h
    by_cases hk : k = a
    · rw [alookup, if_pos hk] at h
      have hb2 : b2 = some buf := Option.some.inj h
      subst hb2; subst hk
      simp only [List.filterMap_cons, Option.map_some']
      exact List.find?_cons_of_pos _ (by simp [mkCandle])
    · rw [alookup, if_neg hk] at h
      cases b2 with
      | none => simpa [List.filterMap_cons] using ih h
      | some b =>
        simp only [List.filterMap_cons, Option.map_some']
        exact (List.find?_cons_of_neg _ (by simp [mkCandle, hk])).trans (ih h)

theorem alookup_reset (a : String) :
    ∀ bl : List (String × Option CandleBuf),
    alookup a (bl.map (fun kb => (kb.1, (none : Option CandleBuf)))) =
      (alookup a bl).map (fun _ => none) := by
  intro bl
  induction bl with
  | nil => rfl
  | cons kb bl ih =>
    by_cases hk : kb.1 = a
    · simp [alookup, hk]
    · simp only [List.map_cons, alookup, if_neg hk]
      exact ih

/-- Last price of a nonempty sample list, through `getLastD`. -/
theorem getLast_fst (pv : ℚ × ℚ) :
    ∀ rest : List (ℚ × ℚ),
    (rest.map (·.1)).getLastD pv.1 =
      ((pv :: rest).getLast (List.cons_ne_nil pv rest)).1 := by
  intro rest
  induction rest generalizing pv with
  | nil => rfl
  | cons q rest ih =>
    rw [List.getLast_cons (List.cons_ne_nil q rest), List.map_cons, List.getLastD_cons]
    exact ih q

end CandleManager

open CandleManager in
/-- C1: for a tracked instrument with an empty (`null`) buffer, feeding a
non-empty sequence of valid samples through `addTrade` within one period
and then closing the period emits a candle whose `open` is the first
sample's price, `close` the last, `high`/`low` the max/min of the prices,
and `volume` the sum of the volumes; afterwards the instrument's buffer is
reset to `null`. -/
theorem candle_close_aggregates_ohlcv
    (s : CMState) (a : String) (samples : List (ℚ × ℚ)) (ts : ℤ)
    (htr : (alookup a s.tracked).isSome)
    (hbuf : alookup a s.buffers = some none)
    (hne : samples ≠ [])
    (hval : ∀ pv ∈ samples, 0 < pv.1) :
    ∃ s' c, feedSamples a samples s = some s' ∧
      ((closeCandlesFor ts s').1.find? (fun cd => cd.tokenAddress == a)) = some c ∧
      c.open_ = (samples.head hne).1 ∧
      c.close = (samples.getLast hne).1 ∧
      (samples.map (·.1)).max? = some c.high ∧
      (samples.map (·.1)).min? = some c.low ∧
      c.volume = (samples.map (·.2)).sum ∧
      alookup a (closeCandlesFor ts s').2.buffers = some none := by
  obtain ⟨pv, rest, rfl⟩ : ∃ pv rest, samples = pv :: rest := by
    cases samples with
    | nil => exact absurd rfl hne
    | cons pv rest => exact ⟨pv, rest, rfl⟩
  have hp0 : 0 < pv.1 := hval pv (by simp)
  set initB : CandleBuf :=
    { open_ := pv.1, high := pv.1, low := pv.1, close := pv.1,
      volume := pv.2, tradeCount := 1 } with hinit
  set s1 : CMState :=
    { s with buffers := aset a (some initB) s.buffers,
             lastPrices := aset a pv.1 s.lastPrices } with hs1
  have hstep : addTrade a (some pv.1) (some pv.2) s = some s1 :=
    addTrade_first s a pv.1 pv.2 htr hbuf hp0
  have hsplit : feedSamples a (pv :: rest) s = feedSamples a rest s1 := by
    simp only [feedSamples, List.foldlM_cons]
    rw [hstep]
    rfl
  obtain ⟨s', h1, h2, h3⟩ :=
    feedSamples_from_buf a rest s1 initB htr (alookup_aset_self a _ s.buffers)
      (fun q hq => hval q (by simp [hq]))
  refine ⟨s', mkCandle a ((alookup a s'.tracked).getD {}) ts (bufAfter initB rest),
    by rw [hsplit]; exact h1, ?_, ?_, ?_, ?_, ?_, ?_, ?_⟩
  · exact find_emitted a s'.tracked ts (bufAfter initB rest) s'.buffers h3
  · simp [mkCandle, bufAfter_open, hinit]
  · rw [mkCandle]
    show (bufAfter initB rest).close = _
    rw [bufAfter_close]
    exact getLast_fst pv rest
  · rw [mkCandle]
    show _ = some (bufAfter initB rest).high
    rw [bufAfter_high, List.map_cons, List.max?]
  · rw [mkCandle]
    show _ = some (bufAfter initB rest).low
    rw [bufAfter_low, List.map_cons, List.min?]
  · rw [mkCandle]
    show (bufAfter initB rest).volume = _
    rw [bufAfter_volume, List.map_cons, List.sum_cons]
  · show alookup a (s'.buffers.map _) = some none
    rw [alookup_reset, h3]
    rfl

/-- Demo state for witnesses: one tracked token with a `null` buffer. -/
def demoCM : CandleManager.CMState :=
  CandleManager.addToken "T" {} { tracked := [], buffers := [], lastPrices := [] }

open CandleManager in
/-- Witness for C1 at a concrete two-sample period. -/
theorem candle_close_aggregates_ohlcv_witness :
    ∃ s' c, feedSamples "T" [(1, 2), (3, 4)] demoCM = some s' ∧
      ((closeCandlesFor 0 s').1.find? (fun cd => cd.tokenAddress == "T")) = some c ∧
      c.open_ = 1 ∧ c.close = 3 ∧
      ([(1 : ℚ), 3]).max? = some c.high ∧ ([(1 : ℚ), 3]).min? = some c.low ∧
      c.volume = 6 ∧
      alookup "T" (closeCandlesFor 0 s').2.buffers = some none := by
  obtain ⟨s', c, h1, h2, h3, h4, h5, h6, h7, h8⟩ :=
    candle_close_aggregates_ohlcv demoCM "T" [(1, 2), (3, 4)] 0
      (by decide) (by decide) (by decide) (by decide)
  refine ⟨s', c, h1, h2, h3, h4, h5, h6, ?_, h8⟩
  rw [h7]
  norm_num

open CandleManager in
/-- C9: `addTrade` is a complete no-op — the returned state is the input
state, so buffers, last-price cache and tracked set are all unchanged —
whenever the token is untracked, the price is `NaN`, or the price is
`≤ 0`; the sample is dropped without any error (`some s`, never `none`). -/
theorem addTrade_drops_invalid_samples
    (s : CandleManager.CMState) (a : String) (price volume : Option ℚ)
    (h : (alookup a s.tracked).isNone ∨ price = none ∨ ∃ p, price = some p ∧ p ≤ 0) :
    addTrade a price volume s = some s := by
  rcases h with h | h | ⟨p, rfl, hp⟩
  · rw [addTrade.eq_def, if_pos h]
  · subst h
    by_cases ht : (alookup a s.tracked).isNone
    · rw [addTrade.eq_def, if_pos ht]
    · rw [addTrade.eq_def, if_neg ht]
  · by_cases ht : (alookup a s.tracked).isNone
    · rw [addTrade.eq_def, if_pos ht]
    · rw [addTrade.eq_def, if_neg ht]
      simp only [if_pos hp]

open CandleManager in
/-- Witness for C9: untracked token, `NaN` price, and non-positive price. -/
theorem addTrade_drops_invalid_samples_witness :
    addTrade "U" (some 5) (some 1) demoCM = some demoCM ∧
    addTrade "T" none (some 1) demoCM = some demoCM ∧
    addTrade "T" (some (-2)) (some 1) demoCM = some demoCM :=
  ⟨addTrade_drops_invalid_samples demoCM "U" (some 5) (some 1) (Or.inl (by decide)),
   addTrade_drops_invalid_samples demoCM "T" none (some 1) (Or.inr (Or.inl rfl)),
   addTrade_drops_invalid_samples demoCM "T" (some (-2)) (some 1)
     (Or.inr (Or.inr ⟨-2, rfl, by norm_num⟩))⟩

namespace Strategy

/-- Candle as consumed by `checkStrategy` (only `close`, `volume` and the
identity fields are read). -/
structure StratCandle where
  tokenAddress : String
  symbol : Option String
  close : ℚ
  volume : ℚ
  deriving Repr, DecidableEq

/-- `opts` of `checkStrategy` (`requireVolumeSpike` defaults to `false`). -/
structure Opts where
  requireVolumeSpike : Bool := false
  deriving Repr, DecidableEq

/-- Signal object returned on success. -/
structure Signal where
  tokenAddress : String
  symbol : String
  ema9 : ℚ
  ema20 : ℚ
  rsi : ℚ
  volume : ℚ
  avgVolume : ℚ
  volumeSpikeActive : Bool
  isVolumeSpike : Bool
  isSignal : Bool
  price : ℚ
  deriving Repr, DecidableEq

/-- Recursive EMA step: `e = α·v + (1−α)·prev`. -/
def emaFrom (al : ℚ) (prev : ℚ) : List ℚ → List ℚ
  | [] => []
  | v :: vs =>
    let e := al * v + (1 - al) * prev
    e :: emaFrom al e vs

/-- Modelled from the spec: `EMA.calculate` of the external
`technicalindicators` npm library (not part of this repository).  Per the
spec, smoothing factor `α = 2/(period+1)`, seeded with the simple average
of the first `period` closes, then applied recursively forward; one output
per input from index `period−1` on, none for shorter inputs. -/
def emaCalc (period : ℕ) (values : List ℚ) : List ℚ :=
  if values.length < period ∨ period = 0 then []
  else
    let al : ℚ := 2 / (period + 1)
    let seed := (values.take period).sum / period
    seed :: emaFrom al seed (values.drop period)

/-- Consecutive deltas of the close series. -/
def diffs : List ℚ → List ℚ
  | a :: b :: rest => (b - a) :: diffs (b :: rest)
  | _ => []

def gainOf (d : ℚ) : ℚ := if 0 < d then d else 0

def lossOf (d : ℚ) : ℚ := if d < 0 then -d else 0

/-- Wilder smoothing step: `a' = (a·(period−1) + v) / period`. -/
def wilderFrom (period : ℚ) (prev : ℚ) : List ℚ → List ℚ
  | [] => []
  | v :: vs =>
    let nxt := (prev * (period - 1) + v) / period
    nxt :: wilderFrom period nxt vs

/-- Modelled from the spec: `RSI.calculate` of the external
`technicalindicators` npm library (not part of this repository).  Per the
spec, 14-period Wilder smoothing of average gains/losses over the
closing-price deltas, `rsi = 100 − 100/(1+RS)` with `RS` the gain/loss
ratio; an all-gain window (average loss `0`, `RS` infinite in JS floats)
yields `100`. -/
def rsiCalc (period : ℕ) (closes : List ℚ) : List ℚ :=
  let ds := diffs closes
  if ds.length < period ∨ period = 0 then []
  else
    let gains := ds.map gainOf
    let losses := ds.map lossOf
    let gAvgs := (gains.take period).sum / period ::
      wilderFrom period ((gains.take period).sum / period) (gains.drop period)
    let lAvgs := (losses.take period).sum / period ::
      wilderFrom period ((losses.take period).sum / period) (losses.drop period)
    (gAvgs.zip lAvgs).map
      (fun gl => if gl.2 = 0 then 100 else 100 - 100 / (1 + gl.1 / gl.2))

/-- Minimum candles required before evaluating (`MIN_CANDLES = 21`). -/
def MIN_CANDLES : ℕ := 21

/-- `volumes.slice(-11, -1)`: the last 10 completed candles' volumes,
excluding the current one. -/
def recentVolumesOf (volumes : List ℚ) : List ℚ :=
  (volumes.drop (volumes.length - 11)).dropLast

/-- Trailing average volume: the mean of `recentVolumesOf` when at least 5
samples exist, else `0`. -/
def avgVolumeOf (volumes : List ℚ) : ℚ :=
  let r := recentVolumesOf volumes
  if 5 ≤ r.length then r.sum / (r.length : ℚ) else 0

/-- `checkStrategy(history, opts)` from `strategy.js`; a `none` history is
the JS `null`/`undefined` guarded by `!history`. -/
def checkStrategy (history : Option (List StratCandle)) (opts : Opts) : Option Signal :=
  match history with
  | none => none
  | some h =>
    if h.length < MIN_CANDLES then none
    else
      let closes := h.map (·.close)
      let volumes := h.map (·.volume)
      let ema9Result := emaCalc 9 closes
      let ema20Result := emaCalc 20 closes
      if ema9Result.length < 2 ∨ ema20Result.length < 2 then none
      else
        let ema9Curr := ema9Result.getLastD 0
        let ema9Prev := ema9Result.dropLast.getLastD 0
        let ema20Curr := ema20Result.getLastD 0
        let ema20Prev := ema20Result.dropLast.getLastD 0
        let isCrossover := decide (ema9Prev ≤ ema20Prev) && decide (ema20Curr < ema9Curr)
        if !isCrossover then none
        else
          let rsiResult := rsiCalc 14 closes
          if rsiResult.length = 0 then none
          else
            let rsi := rsiResult.getLastD 0
            let isRsiGood := decide (50 < rsi)
            if !isRsiGood then none
            else
              let currentVolume := volumes.getLastD 0
              let avgVolume := avgVolumeOf volumes
              let isVolumeSpike :=
                decide (0 < avgVolume) && decide (avgVolume * (3 / 2) < currentVolume)
              if opts.requireVolumeSpike && !isVolumeSpike then none
              else
                let latest := h.getLastD { tokenAddress := "", symbol := none,
                                           close := 0, volume := 0 }
                some { tokenAddress := latest.tokenAddress,
                       symbol := latest.symbol.getD latest.tokenAddress,
                       ema9 := ema9Curr, ema20 := ema20Curr, rsi := rsi,
                       volume := currentVolume, avgVolume := avgVolume,
                       volumeSpikeActive := opts.requireVolumeSpike,
                       isVolumeSpike := isVolumeSpike, isSignal := true,
                       price := latest.close }

end Strategy

namespace Strategy

/-- The spec's crossover scenario: 40 candles closing at `1.0` followed by
one candle closing at `2.0`. -/
def crossoverHistory : List StratCandle :=
  List.replicate 40 { tokenAddress := "T", symbol := none, close := 1, volume := 0 } ++
    [{ tokenAddress := "T", symbol := none, close := 2, volume := 0 }]

end Strategy

open Strategy in
/-- C2: on the 40×`close=1.0` ++ `close=2.0` history, `checkStrategy` with
the volume flag disabled returns a non-null Signal whose fast EMA (period
9) strictly exceeds its slow EMA (period 20) and whose RSI exceeds 50. -/
theorem crossover_scenario_emits_signal :
    ∃ sig : Signal,
      checkStrategy (some crossoverHistory) {} = some sig ∧
      sig.ema20 < sig.ema9 ∧ 50 < sig.rsi := by
  refine ⟨{ tokenAddress := "T", symbol := "T", ema9 := 6/5, ema20 := 23/21,
            rsi := 100, volume := 0, avgVolume := 0, volumeSpikeActive := false,
            isVolumeSpike := false, isSignal := true, price := 2 }, ?_, by norm_num, by norm_num⟩
  set_option maxRecDepth 4000 in
  norm_num [checkStrategy, crossoverHistory, MIN_CANDLES, emaCalc, emaFrom, rsiCalc,
    diffs, gainOf, lossOf, wilderFrom, avgVolumeOf, recentVolumesOf, List.replicate]

open Strategy in
/-- C8: for a missing (`null`) history or any history shorter than 21
candles, `checkStrategy` returns `null`; absence of a signal is the normal
return value of a total function — no exception is raised. -/
theorem evaluator_null_on_short_history
    (history : Option (List StratCandle)) (opts : Opts)
    (hshort : (history.getD []).length < 21) :
    checkStrategy history opts = none := by
  cases history with
  | none => rfl
  | some h =>
    rw [checkStrategy]
    exact if_pos hshort

open Strategy in
/-- Witness for C8: the missing history and the empty history. -/
theorem evaluator_null_on_short_history_witness :
    checkStrategy none {} = none ∧
    checkStrategy (some []) { requireVolumeSpike := true } = none :=
  ⟨evaluator_null_on_short_history none {} (by decide),
   evaluator_null_on_short_history (some []) { requireVolumeSpike := true } (by decide)⟩

open Strategy in
/-- C10: with the volume-spike flag enabled, `checkStrategy` returns `null`
whenever the trailing average volume is not positive — which covers both a
zero 10-candle average and the fewer-than-5-prior-candles case, since the
code requires `avgVolume > 0` besides `currentVolume > 1.5·avgVolume` —
and in particular for every history whose volumes are all zero, as the
live sampler produces, no signal is ever emitted. -/
theorem volume_flag_blocks_zero_volume
    (hist : List StratCandle) (opts : Opts)
    (hflag : opts.requireVolumeSpike = true) :
    (avgVolumeOf (hist.map (·.volume)) ≤ 0 → checkStrategy (some hist) opts = none) ∧
    ((∀ c ∈ hist, c.volume = 0) → checkStrategy (some hist) opts = none) := by
  have main : avgVolumeOf (hist.map (·.volume)) ≤ 0 →
      checkStrategy (some hist) opts = none := by
    intro havg
    simp only [checkStrategy]
    split
    · rfl
    split
    · rfl
    split
    · rfl
    split
    · rfl
    split
    · rfl
    rw [if_pos]
    rw [hflag]
    simp only [Bool.true_and, Bool.not_eq_eq_eq_not, Bool.not_true, Bool.and_eq_false_imp]
    intro h0
    exact absurd (of_decide_eq_true h0) (not_lt.mpr havg)
  refine ⟨main, fun hzero => main ?_⟩
  have hsub : List.Sublist (recentVolumesOf (hist.map (·.volume))) (hist.map (·.volume)) :=
    (List.dropLast_sublist _).trans (List.drop_sublist _ _)
  have hz : ∀ v ∈ recentVolumesOf (hist.map (·.volume)), v = 0 := by
    intro v hv
    obtain ⟨c, hc, rfl⟩ := List.mem_map.mp (hsub.mem hv)
    exact hzero c hc
  rw [avgVolumeOf]
  split
  · rw [List.sum_eq_zero hz]
    simp
  · exact le_refl 0

open Strategy in
/-- Witness for C10: the crossover-scenario history (whose volumes are all
zero, as the live sampler produces) emits no signal when the flag is on. -/
theorem volume_flag_blocks_zero_volume_witness :
    checkStrategy (some crossoverHistory) { requireVolumeSpike := true } = none :=
  (volume_flag_blocks_zero_volume crossoverHistory { requireVolumeSpike := true } rfl).2
    (by intro c hc
        rw [crossoverHistory] at hc
        rcases List.mem_append.mp hc with h | h
        · rw [(List.eq_of_mem_replicate h)]
        · rw [List.mem_singleton.mp h])

/-- Normalized OHLCV candle returned by the gecko backfill fetch
(`getBackfillData`), oldest-first. -/
structure GCandle where
  timestamp : ℤ
  open_ : ℚ
  high : ℚ
  low : ℚ
  close : ℚ
  volume : ℚ
  deriving Repr, DecidableEq

namespace BackfillQueue

/-- Task status: `pending`, `done` or `failed`. -/
inductive QStatus where
  | pending
  | done
  | failed
  deriving Repr, DecidableEq

/-- A `BackfillQueue` document. -/
structure QTask where
  address : String
  symbol : String
  name : String
  poolAddress : Option String
  status : QStatus
  attempts : ℕ
  lastAttempt : Option ℤ
  enqueuedAt : ℤ
  error : Option String
  completedAt : Option ℤ
  deriving Repr, DecidableEq

/-- The `token` argument of `enqueue` (fields may be missing in JS). -/
structure TokRef where
  address : String
  symbol : Option String := none
  name : Option String := none
  poolAddress : Option String := none
  deriving Repr, DecidableEq

/-- Give up after this many failures per token. -/
def MAX_ATTEMPTS : ℕ := 5

/-- Wait at least 2 min between retries. -/
def RETRY_AFTER_MS : ℤ := 2 * 60 * 1000

/-- Whether some document carries the address (Mongo match on `address`). -/
def hasAddr (a : String) : List QTask → Bool
  | [] => false
  | t :: ts => if t.address = a then true else hasAddr a ts

/-- Mongo `findOne`-like first match by address. -/
def findA (a : String) : List QTask → Option QTask
  | [] => none
  | t :: ts => if t.address = a then some t else findA a ts

/-- Mongo `updateOne` by address: rewrite the first matching document. -/
def updateByAddr (a : String) (f : QTask → QTask) : List QTask → List QTask
  | [] => []
  | t :: ts => if t.address = a then f t :: ts else t :: updateByAddr a f ts

/-- `enqueue(token)`: `updateOne` upsert carrying only `$setOnInsert`, so
an existing document (any status) is left completely unchanged and a
missing one is inserted fresh with `status='pending'`, `attempts=0`. -/
def enqueue (tok : TokRef) (now : ℤ) (q : List QTask) : List QTask :=
  if hasAddr tok.address q then q
  else q ++ [{ address := tok.address, symbol := tok.symbol.getD "",
               name := tok.name.getD "", poolAddress := tok.poolAddress,
               status := .pending, attempts := 0, lastAttempt := none,
               enqueuedAt := now, error := none, completedAt := none }]

/-- `remove(address)`: Mongo `deleteOne` (first match). -/
def removeTask (a : String) : List QTask → List QTask
  | [] => []
  | t :: ts => if t.address = a then ts else t :: removeTask a ts

/-- The drain's retry-cooldown filter:
`lastAttempt` unset, or older than `now − RETRY_AFTER_MS`. -/
def retryDue (now : ℤ) (t : QTask) : Bool :=
  match t.lastAttempt with
  | none => true
  | some la => decide (la < now - RETRY_AFTER_MS)

/-- Sort key of `.sort({ attempts: 1, enqueuedAt: 1 })`. -/
def taskLE (t u : QTask) : Bool :=
  decide (t.attempts < u.attempts) ||
    (decide (t.attempts = u.attempts) && decide (t.enqueuedAt ≤ u.enqueuedAt))

/-- Insertion step of a simple stable sort implementing the Mongo sort. -/
def insertSorted (x : QTask) : List QTask → List QTask
  | [] => [x]
  | y :: ys => if taskLE y x then y :: insertSorted x ys else x :: y :: ys

/-- Insertion sort by `(attempts asc, enqueuedAt asc)`. -/
def sortTasks : List QTask → List QTask
  | [] => []
  | x :: xs => insertSorted x (sortTasks xs)

/-- The drain's selection query: up to `batchSize` documents with
`status='pending'` passing the cooldown, lowest attempts first. -/
def selectItems (q : List QTask) (now : ℤ) (batchSize : ℕ) : List QTask :=
  (sortTasks (q.filter (fun t => decide (t.status = .pending) && retryDue now t))).take
    batchSize

/-- Outcomes of the two external calls made while processing one item:
`resolvePoolAddress` (`none` = failure or no pool, also covering a thrown
error, which the `catch` routes to the same `maybeMarkFailed`) and
`getBackfillData` (`[]` = failure or empty). -/
structure Oracle where
  resolvePool : Option String
  fetch : String → List GCandle

/-- `maybeMarkFailed(item)`: `item.attempts + 1` (the snapshot plus the
increment just written) reaching `MAX_ATTEMPTS` marks the document
`failed`; otherwise it stays `pending` for the next drain cycle. -/
def maybeMarkFailed (item : QTask) (q : List QTask) : List QTask :=
  if MAX_ATTEMPTS ≤ item.attempts + 1 then
    updateByAddr item.address
      (fun t => { t with status := .failed, error := some "Exhausted 5 attempts" }) q
  else q

/-- Steps 2–6 of `processItem` once a pool reference is at hand: fetch
OHLCV; on empty, `maybeMarkFailed`; else persist candles and register the
token (effects on the candle store and the live candle manager, outside
this queue collection) and mark the document `done`. -/
def fetchAndFinish (orc : Oracle) (now : ℤ) (item : QTask) (pool : String)
    (q : List QTask) : List QTask :=
  if (orc.fetch pool).isEmpty then maybeMarkFailed item q
  else
    updateByAddr item.address
      (fun t => { t with status := .done, completedAt := some now, error := none }) q

/-- `processItem(item)`: write `lastAttempt`/`$inc attempts`, resolve the
pool if missing (caching it on the queue document and the Token record —
the latter outside this collection), then fetch and finish. -/
def processItem (orc : Oracle) (now : ℤ) (item : QTask) (q : List QTask) : List QTask :=
  let q1 := updateByAddr item.address
    (fun t => { t with lastAttempt := some now, attempts := t.attempts + 1 }) q
  match item.poolAddress with
  | some pool => fetchAndFinish orc now item pool q1
  | none =>
    match orc.resolvePool with
    | none => maybeMarkFailed item q1
    | some pool =>
      let q2 := updateByAddr item.address (fun t => { t with poolAddress := some pool }) q1
      fetchAndFinish orc now item pool q2

/-- `drain(batchSize)`: select the batch once (`.lean()` snapshots), then
process the snapshots strictly sequentially.  The `_draining` busy flag
makes overlapping drains no-ops; the model's single timeline has none. -/
def drain (orc : String → Oracle) (now : ℤ) (batchSize : ℕ) (q : List QTask) : List QTask :=
  (selectItems q now batchSize).foldl
    (fun acc item => processItem (orc item.address) now item acc) q

end BackfillQueue

namespace BackfillQueue

/-- All queue updates used by the drain keep the `address` key. -/
def KeepsAddr (f : QTask → QTask) : Prop :=
  ∀ t, (f t).address = t.address

theorem updateByAddr_map_address (a : String) (f : QTask → QTask) (hf : KeepsAddr f) :
    ∀ q : List QTask, (updateByAddr a f q).map (·.address) = q.map (·.address) := by
  intro q
  induction q with
  | nil => rfl
  | cons t ts ih =>
    by_cases h : t.address = a
    · simp [updateByAddr, h, hf t]
    · simp [updateByAddr, h, ih]

theorem updateByAddr_comp (a : String) (f g : QTask → QTask) (hf : KeepsAddr f) :
    ∀ q : List QTask,
      updateByAddr a g (updateByAddr a f q) = updateByAddr a (fun t => g (f t)) q := by
  intro q
  induction q with
  | nil => rfl
  | cons t ts ih =>
    by_cases h : t.address = a
    · simp [updateByAddr, h, hf t]
    · simp [updateByAddr, h, ih]

theorem findA_updateByAddr_ne (a b : String) (f : QTask → QTask) (hf : KeepsAddr f)
    (hne : b ≠ a) :
    ∀ q : List QTask, findA b (updateByAddr a f q) = findA b q := by
  intro q
  induction q with
  | nil => rfl
  | cons t ts ih =>
    by_cases h : t.address = a
    · have hfb : (f t).address ≠ b := by rw [hf t, h]; exact fun he => hne he.symm
      have htb : t.address ≠ b := by rw [h]; exact fun he => hne he.symm
      rw [updateByAddr, if_pos h, findA, if_neg hfb, findA, if_neg htb]
    · by_cases hb : t.address = b
      · rw [updateByAddr, if_neg h, findA, if_pos hb, findA, if_pos hb]
      · rw [updateByAddr, if_neg h, findA, if_neg hb, findA, if_neg hb]
        exact ih

/-- Members of an updated queue: the rewritten first match, or an original
member. -/
theorem mem_updateByAddr (a : String) (f : QTask → QTask) :
    ∀ q : List QTask, ∀ u ∈ updateByAddr a f q,
      u ∈ q ∨ ∃ t, findA a q = some t ∧ u = f t := by
  intro q
  induction q with
  | nil => intro u hu; exact absurd hu (by simp [updateByAddr])
  | cons t ts ih =>
    intro u hu
    by_cases h : t.address = a
    · rw [updateByAddr, if_pos h] at hu
      rcases List.mem_cons.mp hu with hu | hu
      · exact Or.inr ⟨t, by rw [findA, if_pos h], hu⟩
      · exact Or.inl (List.mem_cons_of_mem t hu)
    · rw [updateByAddr, if_neg h] at hu
      rcases List.mem_cons.mp hu with hu | hu
      · exact Or.inl (hu ▸ List.mem_cons_self t ts)
      · rcases ih u hu with hin | ⟨t', ht', rfl⟩
        · exact Or.inl (List.mem_cons_of_mem t hin)
        · exact Or.inr ⟨t', by rw [findA, if_neg h]; exact ht', rfl⟩

theorem findA_of_mem_nodup :
    ∀ q : List QTask, (q.map (·.address)).Nodup → ∀ t ∈ q, findA t.address q = some t := by
  intro q
  induction q with
  | nil => intro _ t ht; exact absurd ht (by simp)
  | cons u ts ih =>
    intro hnd t ht
    rcases List.mem_cons.mp ht with rfl | ht
    · rw [findA, if_pos rfl]
    · have hne : u.address ≠ t.address := by
        intro he
        have : t.address ∈ ts.map (·.address) := List.mem_map_of_mem _ ht
        rw [List.map_cons, List.nodup_cons] at hnd
        exact hnd.1 (he ▸ this)
      rw [findA, if_neg hne]
      exact ih (by rw [List.map_cons, List.nodup_cons] at hnd; exact hnd.2) t ht

theorem insertSorted_perm (x : QTask) :
    ∀ l : List QTask, (insertSorted x l).Perm (x :: l) := by
  intro l
  induction l with
  | nil => exact List.Perm.refl _
  | cons y ys ih =>
    rw [insertSorted]
    by_cases h : taskLE y x
    · rw [if_pos h]
      exact (List.Perm.cons y ih).trans (List.Perm.swap x y ys)
    · rw [if_neg h]

theorem sortTasks_perm : ∀ l : List QTask, (sortTasks l).Perm l := by
  intro l
  induction l with
  | nil => exact List.Perm.refl _
  | cons x xs ih =>
    exact (insertSorted_perm x (sortTasks xs)).trans (List.Perm.cons x ih)

theorem mem_selectItems (q : List QTask) (now : ℤ) (b : ℕ) :
    ∀ t ∈ selectItems q now b, t ∈ q ∧ t.status = .pending ∧ retryDue now t = true := by
  intro t ht
  have h1 : t ∈ sortTasks (q.filter (fun t => decide (t.status = .pending) && retryDue now t)) :=
    List.mem_of_mem_take ht
  have h2 := (sortTasks_perm _).mem_iff.mp h1
  obtain ⟨hmem, hp⟩ := List.mem_filter.mp h2
  simp only [Bool.and_eq_true, decide_eq_true_eq] at hp
  exact ⟨hmem, hp.1, hp.2⟩

theorem selectItems_addr_nodup (q : List QTask) (now : ℤ) (b : ℕ)
    (hnd : (q.map (·.address)).Nodup) :
    ((selectItems q now b).map (·.address)).Nodup := by
  have hsub : List.Sublist
      (q.filter (fun t => decide (t.status = .pending) && retryDue now t)) q :=
    List.filter_sublist q
  have h1 : ((q.filter (fun t => decide (t.status = .pending) && retryDue now t)).map
      (·.address)).Nodup := (hsub.map (·.address)).nodup hnd
  have hperm : List.Perm
      ((sortTasks (q.filter (fun t => decide (t.status = .pending) && retryDue now t))).map
        (·.address))
      ((q.filter (fun t => decide (t.status = .pending) && retryDue now t)).map
        (·.address)) :=
    (sortTasks_perm _).map (·.address)
  have h2 : ((sortTasks (q.filter
      (fun t => decide (t.status = .pending) && retryDue now t))).map (·.address)).Nodup :=
    hperm.nodup_iff.mpr h1
  have htake : List.Sublist (selectItems q now b)
      (sortTasks (q.filter (fun t => decide (t.status = .pending) && retryDue now t))) :=
    List.take_sublist _ _
  exact (htake.map (·.address)).nodup h2

end BackfillQueue

namespace BackfillQueue

/-- Net effect of `processItem` on the queue document it touches
(increment bookkeeping, optional pool caching, then done/failed/left
pending), as a single document rewrite. -/
def procResult (orc : Oracle) (now : ℤ) (item : QTask) (t : QTask) : QTask :=
  let t1 : QTask := { t with lastAttempt := some now, attempts := t.attempts + 1 }
  match item.poolAddress with
  | some pool =>
    if (orc.fetch pool).isEmpty then
      if MAX_ATTEMPTS ≤ item.attempts + 1 then
        { t1 with status := .failed, error := some "Exhausted 5 attempts" }
      else t1
    else { t1 with status := .done, completedAt := some now, error := none }
  | none =>
    match orc.resolvePool with
    | none =>
      if MAX_ATTEMPTS ≤ item.attempts + 1 then
        { t1 with status := .failed, error := some "Exhausted 5 attempts" }
      else t1
    | some pool =>
      let t2 : QTask := { t1 with poolAddress := some pool }
      if (orc.fetch pool).isEmpty then
        if MAX_ATTEMPTS ≤ item.attempts + 1 then
          { t2 with status := .failed, error := some "Exhausted 5 attempts" }
        else t2
      else { t2 with status := .done, completedAt := some now, error := none }

theorem procResult_keeps_addr (orc : Oracle) (now : ℤ) (item : QTask) :
    KeepsAddr (procResult orc now item) := by
  intro t
  rw [procResult]
  cases item.poolAddress with
  | some pool =>
    by_cases hf : (orc.fetch pool).isEmpty <;>
      by_cases hm : MAX_ATTEMPTS ≤ item.attempts + 1 <;>
      simp [hf, hm]
  | none =>
    cases orc.resolvePool with
    | none => by_cases hm : MAX_ATTEMPTS ≤ item.attempts + 1 <;> simp [hm]
    | some pool =>
      by_cases hf : (orc.fetch pool).isEmpty <;>
        by_cases hm : MAX_ATTEMPTS ≤ item.attempts + 1 <;>
        simp [hf, hm]

theorem updateByAddr_congr (a : String) (f g : QTask → QTask) (h : ∀ t, f t = g t) :
    ∀ q : List QTask, updateByAddr a f q = updateByAddr a g q := by
  intro q
  induction q with
  | nil => rfl
  | cons t ts ih =>
    by_cases ht : t.address = a
    · simp [updateByAddr, ht, h t]
    · simp [updateByAddr, ht, ih]

theorem updateByAddr_comp2 (a : String) (f g k : QTask → QTask) (q : List QTask)
    (hf : KeepsAddr f) (hk : ∀ t, g (f t) = k t) :
    updateByAddr a g (updateByAddr a f q) = updateByAddr a k q :=
  (updateByAddr_comp a f g hf q).trans (updateByAddr_congr a _ k hk q)

/-- The sequential `updateOne`s of `processItem` collapse to one rewrite
of the touched document. -/
theorem processItem_eq (orc : Oracle) (now : ℤ) (item : QTask) (q : List QTask) :
    processItem orc now item q = updateByAddr item.address (procResult orc now item) q := by
  cases hpool : item.poolAddress with
  | some pool =>
    by_cases hf : (orc.fetch pool).isEmpty
    · by_cases hm : MAX_ATTEMPTS ≤ item.attempts + 1
      · simp only [processItem, fetchAndFinish, maybeMarkFailed, hpool, if_pos hf, if_pos hm]
        exact updateByAddr_comp2 _ _ _ _ _ (fun t => rfl) (by
          intro t
          simp [procResult, hpool, hf, hm])
      · simp only [processItem, fetchAndFinish, maybeMarkFailed, hpool, if_pos hf, if_neg hm]
        exact updateByAddr_congr _ _ _ (by
          intro t
          simp [procResult, hpool, hf, hm]) q
    · simp only [processItem, fetchAndFinish, hpool, if_neg hf]
      exact updateByAddr_comp2 _ _ _ _ _ (fun t => rfl) (by
        intro t
        simp [procResult, hpool, hf])
  | none =>
    cases hres : orc.resolvePool with
    | none =>
      by_cases hm : MAX_ATTEMPTS ≤ item.attempts + 1
      · simp only [processItem, maybeMarkFailed, hpool, hres, if_pos hm]
        exact updateByAddr_comp2 _ _ _ _ _ (fun t => rfl) (by
          intro t
          simp [procResult, hpool, hres, hm])
      · simp only [processItem, maybeMarkFailed, hpool, hres, if_neg hm]
        exact updateByAddr_congr _ _ _ (by
          intro t
          simp [procResult, hpool, hres, hm]) q
    | some pool =>
      by_cases hf : (orc.fetch pool).isEmpty
      · by_cases hm : MAX_ATTEMPTS ≤ item.attempts + 1
        · simp only [processItem, fetchAndFinish, maybeMarkFailed, hpool, hres, if_pos hf,
            if_pos hm]
          rw [updateByAddr_comp item.address
            (fun t => { t with lastAttempt := some now, attempts := t.attempts + 1 })
            (fun t => { t with poolAddress := some pool }) (fun t => rfl) q]
          exact updateByAddr_comp2 _ _ _ _ _ (fun t => rfl) (by
            intro t
            simp [procResult, hpool, hres, hf, hm])
        · simp only [processItem, fetchAndFinish, maybeMarkFailed, hpool, hres, if_pos hf,
            if_neg hm]
          exact updateByAddr_comp2 _ _ _ _ _ (fun t => rfl) (by
            intro t
            simp [procResult, hpool, hres, hf, hm])
      · simp only [processItem, fetchAndFinish, hpool, hres, if_neg hf]
        rw [updateByAddr_comp item.address
          (fun t => { t with lastAttempt := some now, attempts := t.attempts + 1 })
          (fun t => { t with poolAddress := some pool }) (fun t => rfl) q]
        exact updateByAddr_comp2 _ _ _ _ _ (fun t => rfl) (by
          intro t
          simp [procResult, hpool, hres, hf])

/-- A document left `pending` by `processItem` was pending before, got its
attempts incremented once, and the snapshot was strictly below the
ceiling. -/
theorem procResult_pending (orc : Oracle) (now : ℤ) (item t : QTask)
    (h : (procResult orc now item t).status = .pending) :
    t.status = .pending ∧ (procResult orc now item t).attempts = t.attempts + 1 ∧
      item.attempts + 1 < MAX_ATTEMPTS := by
  cases hpool : item.poolAddress with
  | some pool =>
    by_cases hf : (orc.fetch pool).isEmpty <;>
      by_cases hm : 5 ≤ item.attempts + 1 <;>
      simp [procResult, MAX_ATTEMPTS, hpool, hf, hm] at h ⊢ <;>
      first
      | omega
      | exact ⟨h, by omega⟩
      | exact ⟨h, rfl, by omega⟩
  | none =>
    cases hres : orc.resolvePool with
    | none =>
      by_cases hm : 5 ≤ item.attempts + 1 <;>
        simp [procResult, MAX_ATTEMPTS, hpool, hres, hm] at h ⊢ <;>
        first
        | omega
        | exact ⟨h, by omega⟩
        | exact ⟨h, rfl, by omega⟩
    | some pool =>
      by_cases hf : (orc.fetch pool).isEmpty <;>
        by_cases hm : 5 ≤ item.attempts + 1 <;>
        simp [procResult, MAX_ATTEMPTS, hpool, hres, hf, hm] at h ⊢ <;>
        first
        | omega
        | exact ⟨h, by omega⟩
        | exact ⟨h, rfl, by omega⟩

end BackfillQueue

namespace BackfillQueue

/-- The spec's queue invariant: `attempts < maxAttempts` while
`status=pending`. -/
def InvP (q : List QTask) : Prop :=
  ∀ t ∈ q, t.status = .pending → t.attempts < MAX_ATTEMPTS

/-- Addresses are unique in the queue collection (the upsert key). -/
def InvN (q : List QTask) : Prop :=
  (q.map (·.address)).Nodup

theorem hasAddr_false_not_mem (a : String) :
    ∀ q : List QTask, hasAddr a q = false → a ∉ q.map (·.address) := by
  intro q
  induction q with
  | nil => intro _ h; simp at h
  | cons t ts ih =>
    intro hq h
    rw [hasAddr] at hq
    by_cases ht : t.address = a
    · rw [if_pos ht] at hq
      exact absurd hq (by simp)
    · rw [if_neg ht] at hq
      rcases List.mem_cons.mp h with h | h
      · exact ht h.symm
      · exact ih hq h

theorem enqueue_inv (tok : TokRef) (now : ℤ) (q : List QTask)
    (hp : InvP q) (hn : InvN q) : InvP (enqueue tok now q) ∧ InvN (enqueue tok now q) := by
  rw [enqueue]
  by_cases h : hasAddr tok.address q
  · rw [if_pos h]
    exact ⟨hp, hn⟩
  · rw [if_neg h]
    constructor
    · intro t ht hst
      rcases List.mem_append.mp ht with ht | ht
      · exact hp t ht hst
      · rw [List.mem_singleton.mp ht]
        simp [MAX_ATTEMPTS]
    · rw [InvN, List.map_append, List.nodup_append]
      refine ⟨hn, List.nodup_singleton _, ?_⟩
      intro x hx hx'
      rw [List.map_singleton, List.mem_singleton] at hx'
      subst hx'
      exact hasAddr_false_not_mem tok.address q (Bool.of_not_eq_true h) hx

theorem removeTask_mem (a : String) :
    ∀ q : List QTask, ∀ u ∈ removeTask a q, u ∈ q := by
  intro q
  induction q with
  | nil => intro u hu; exact absurd hu (by simp [removeTask])
  | cons t ts ih =>
    intro u hu
    rw [removeTask] at hu
    by_cases ht : t.address = a
    · rw [if_pos ht] at hu
      exact List.mem_cons_of_mem t hu
    · rw [if_neg ht] at hu
      rcases List.mem_cons.mp hu with hu | hu
      · exact hu ▸ List.mem_cons_self t ts
      · exact List.mem_cons_of_mem t (ih u hu)

theorem removeTask_map_sublist (a : String) :
    ∀ q : List QTask, List.Sublist ((removeTask a q).map (·.address)) (q.map (·.address)) := by
  intro q
  induction q with
  | nil => exact List.Sublist.refl _
  | cons t ts ih =>
    rw [removeTask]
    by_cases ht : t.address = a
    · rw [if_pos ht, List.map_cons]
      exact (List.Sublist.refl _).cons _
    · rw [if_neg ht, List.map_cons, List.map_cons]
      exact ih.cons₂ _

theorem removeTask_inv (a : String) (q : List QTask)
    (hp : InvP q) (hn : InvN q) : InvP (removeTask a q) ∧ InvN (removeTask a q) :=
  ⟨fun t ht hst => hp t (removeTask_mem a q t ht) hst, (removeTask_map_sublist a q).nodup hn⟩

theorem findA_processItem_ne (orc : Oracle) (now : ℤ) (item : QTask) (b : String)
    (hne : b ≠ item.address) (q : List QTask) :
    findA b (processItem orc now item q) = findA b q := by
  rw [processItem_eq]
  exact findA_updateByAddr_ne _ _ _ (procResult_keeps_addr orc now item) hne q

theorem processItem_map_address (orc : Oracle) (now : ℤ) (item : QTask) (q : List QTask) :
    (processItem orc now item q).map (·.address) = q.map (·.address) := by
  rw [processItem_eq]
  exact updateByAddr_map_address _ _ (procResult_keeps_addr orc now item) q

theorem drain_fold_inv (orc : String → Oracle) (now : ℤ) :
    ∀ (items : List QTask) (q : List QTask), InvP q → InvN q →
    (∀ it ∈ items, it.status = .pending ∧ findA it.address q = some it) →
    ((items.map (·.address)).Nodup) →
    InvP (items.foldl (fun acc it => processItem (orc it.address) now it acc) q) ∧
    InvN (items.foldl (fun acc it => processItem (orc it.address) now it acc) q) := by
  intro items
  induction items with
  | nil => exact fun q hp hn _ _ => ⟨hp, hn⟩
  | cons it rest ih =>
    intro q hp hn hitems hnd
    rw [List.foldl_cons]
    have hfind : findA it.address q = some it := (hitems it (List.mem_cons_self it rest)).2
    have hp' : InvP (processItem (orc it.address) now it q) := by
      intro u hu hupend
      rw [processItem_eq] at hu
      rcases mem_updateByAddr _ _ q u hu with hin | ⟨t, hft, rfl⟩
      · exact hp u hin hupend
      · have heq : t = it := Option.some.inj (hft.symm.trans hfind)
        subst heq
        obtain ⟨_, hatt, hlt⟩ := procResult_pending _ _ _ _ hupend
        rw [hatt]
        exact hlt
    have hn' : InvN (processItem (orc it.address) now it q) := by
      rw [InvN, processItem_map_address]
      exact hn
    have hrest : ∀ it2 ∈ rest, it2.status = .pending ∧
        findA it2.address (processItem (orc it.address) now it q) = some it2 := by
      intro it2 hit2
      have hne : it2.address ≠ it.address := by
        intro he
        rw [List.map_cons, List.nodup_cons] at hnd
        exact hnd.1 (he ▸ List.mem_map_of_mem _ hit2)
      exact ⟨(hitems it2 (List.mem_cons_of_mem it hit2)).1,
        (findA_processItem_ne _ _ _ _ hne q).trans (hitems it2 (List.mem_cons_of_mem it hit2)).2⟩
    exact ih _ hp' hn' hrest (by rw [List.map_cons, List.nodup_cons] at hnd; exact hnd.2)

theorem drain_inv (orc : String → Oracle) (now : ℤ) (b : ℕ) (q : List QTask)
    (hp : InvP q) (hn : InvN q) :
    InvP (drain orc now b q) ∧ InvN (drain orc now b q) := by
  rw [drain]
  refine drain_fold_inv orc now (selectItems q now b) q hp hn ?_ ?_
  · intro it hit
    obtain ⟨hmem, hpend, _⟩ := mem_selectItems q now b it hit
    exact ⟨hpend, findA_of_mem_nodup q hn it hmem⟩
  · exact selectItems_addr_nodup q now b hn

/-- Queue states reachable through the queue's own operations. -/
inductive Reach : List QTask → Prop where
  | nil : Reach []
  | enq : ∀ (tok : TokRef) (now : ℤ) (q : List QTask), Reach q → Reach (enqueue tok now q)
  | rem : ∀ (a : String) (q : List QTask), Reach q → Reach (removeTask a q)
  | drn : ∀ (orc : String → Oracle) (now : ℤ) (b : ℕ) (q : List QTask),
      Reach q → Reach (drain orc now b q)

theorem reach_inv : ∀ q : List QTask, Reach q → InvP q ∧ InvN q := by
  intro q hq
  induction hq with
  | nil => exact ⟨fun t ht => absurd ht (by simp), by simp [InvN]⟩
  | enq tok now q _ ih => exact enqueue_inv tok now q ih.1 ih.2
  | rem a q _ ih => exact removeTask_inv a q ih.1 ih.2
  | drn orc now b q _ ih => exact drain_inv orc now b q ih.1 ih.2

/-- Oracle where the pool never resolves and fetches return nothing. -/
def failOracle : Oracle := { resolvePool := none, fetch := fun _ => [] }

/-- The max-attempts scenario: one enqueued token, five drains each spaced
beyond the retry cooldown, every attempt failing. -/
def failTrace : List QTask :=
  drain (fun _ => failOracle) 650000 5
    (drain (fun _ => failOracle) 520000 5
      (drain (fun _ => failOracle) 390000 5
        (drain (fun _ => failOracle) 260000 5
          (drain (fun _ => failOracle) 130000 5
            (enqueue { address := "T", symbol := some "TT" } 0 [])))))

end BackfillQueue

open BackfillQueue in
/-- C3: on every queue state reachable through the queue's operations,
`attempts < maxAttempts (= 5)` holds while `status=pending`; a drain only
ever selects `pending` documents, so a `failed` task is never picked up
again; and in the concrete max-attempts scenario a task failing five
consecutive drains ends `failed` with `attempts = 5` and is excluded from
every subsequent drain. -/
theorem backfill_retry_invariant :
    (∀ q, Reach q → ∀ t ∈ q, t.status = .pending → t.attempts < MAX_ATTEMPTS) ∧
    (∀ (q : List QTask) (now : ℤ) (b : ℕ), ∀ t ∈ selectItems q now b,
      t.status = .pending) ∧
    (findA "T" failTrace).map (fun t => (t.status, t.attempts)) =
      some (QStatus.failed, 5) ∧
    (∀ (now2 : ℤ) (b2 : ℕ), selectItems failTrace now2 b2 = []) := by
  refine ⟨fun q hq => (reach_inv q hq).1,
    fun q now b t ht => (mem_selectItems q now b t ht).2.1, ?_, ?_⟩
  · decide
  · intro now2 b2
    have hft : failTrace =
        [{ address := "T", symbol := "TT", name := "", poolAddress := none,
           status := .failed, attempts := 5, lastAttempt := some 650000, enqueuedAt := 0,
           error := some "Exhausted 5 attempts", completedAt := none }] := by decide
    rw [selectItems, hft]
    simp [sortTasks]

namespace BackfillQueue

/-- The document created by the first enqueue of the witness scenario. -/
def qTask0 : QTask :=
  { address := "T", symbol := "TT", name := "", poolAddress := none,
    status := .pending, attempts := 0, lastAttempt := none, enqueuedAt := 0,
    error := none, completedAt := none }

end BackfillQueue

open BackfillQueue in
/-- Witness for C3 on the reachable state holding one freshly enqueued task. -/
theorem backfill_retry_invariant_witness : qTask0.attempts < MAX_ATTEMPTS :=
  backfill_retry_invariant.1 (enqueue { address := "T", symbol := some "TT" } 0 [])
    (Reach.enq _ 0 [] Reach.nil) qTask0 (by decide) rfl

namespace Storage

/-- A persisted `Candle` document; natural key `(tokenAddress, timestamp)`
(the collection's unique index). -/
structure CandleDoc where
  tokenAddress : String
  poolAddress : Option String
  timestamp : ℤ
  open_ : ℚ
  high : ℚ
  low : ℚ
  close : ℚ
  volume : ℚ
  deriving Repr, DecidableEq

/-- Whether the store already holds the natural key. -/
def hasKey (a : String) (ts : ℤ) : List CandleDoc → Bool
  | [] => false
  | d :: ds => if d.tokenAddress = a ∧ d.timestamp = ts then true else hasKey a ts ds

/-- One insert against the unique index: a duplicate key is skipped and —
because the 11000 error is swallowed — treated as success. -/
def insertOne (d : CandleDoc) (s : List CandleDoc) : List CandleDoc :=
  if hasKey d.tokenAddress d.timestamp s then s else s ++ [d]

/-- `saveCandle(candle)`: `Candle.create` with the duplicate-key error
ignored (idempotent saves). -/
def saveCandle (c : CandleManager.MCandle) (s : List CandleDoc) : List CandleDoc :=
  insertOne { tokenAddress := c.tokenAddress, poolAddress := c.poolAddress,
              timestamp := c.timestamp, open_ := c.open_, high := c.high,
              low := c.low, close := c.close, volume := c.volume } s

/-- Candle document written by a backfill for one fetched candle. -/
def backfillDoc (tokenAddress : String) (poolAddress : Option String)
    (c : GCandle) : CandleDoc :=
  { tokenAddress := tokenAddress, poolAddress := poolAddress, timestamp := c.timestamp,
    open_ := c.open_, high := c.high, low := c.low, close := c.close,
    volume := c.volume }

/-- `backfillCandles(tokenAddress, poolAddress, candles)`: `insertMany`
with `ordered:false` — every new key is inserted, duplicate keys are
silently skipped, and the call never surfaces an error. -/
def backfillCandles (tokenAddress : String) (poolAddress : Option String)
    (candles : List GCandle) (s : List CandleDoc) : List CandleDoc :=
  if candles.isEmpty then s
  else candles.foldl (fun acc c => insertOne (backfillDoc tokenAddress poolAddress c) acc) s

/-- `getLatestCandleTime(tokenAddress)`: timestamp of the most recent
candle of the token, `null` when none exist. -/
def getLatestCandleTime (a : String) (s : List CandleDoc) : Option ℤ :=
  ((s.filter (fun d => decide (d.tokenAddress = a))).map (·.timestamp)).max?

/-- `Candle.countDocuments({ tokenAddress })`. -/
def countFor (a : String) (s : List CandleDoc) : ℕ :=
  (s.filter (fun d => decide (d.tokenAddress = a))).length

end Storage

namespace BackfillQueue

/-- A `Token` collection document (the fields the queue and reconciler
read). -/
structure TokenDoc where
  address : String
  symbol : Option String := none
  name : Option String := none
  poolAddress : Option String := none
  isActive : Bool := true
  deriving Repr, DecidableEq

/-- `auditAndEnqueueMissing()`: scan the full `Token` collection and
enqueue every token with zero persisted candles. -/
def auditAndEnqueueMissing (tokens : List TokenDoc) (store : List Storage.CandleDoc)
    (now : ℤ) (q : List QTask) : List QTask :=
  tokens.foldl (fun acc tok =>
    if Storage.countFor tok.address store = 0 then
      enqueue { address := tok.address, symbol := tok.symbol, name := tok.name,
                poolAddress := tok.poolAddress } now acc
    else acc) q

theorem hasAddr_append (a : String) (r : List QTask) :
    ∀ q : List QTask, hasAddr a (q ++ r) = (hasAddr a q || hasAddr a r) := by
  intro q
  induction q with
  | nil => simp [hasAddr]
  | cons t ts ih =>
    by_cases ht : t.address = a
    · simp [hasAddr, ht]
    · simp only [List.cons_append, hasAddr, if_neg ht]
      exact ih

/-- `enqueue` only ever appends, and anything it appends is a fresh
pending task with `attempts = 0`. -/
theorem enqueue_append (tok : TokRef) (now : ℤ) (q : List QTask) :
    ∃ r, enqueue tok now q = q ++ r ∧
      ∀ t ∈ r, t.status = .pending ∧ t.attempts = 0 := by
  rw [enqueue]
  by_cases h : hasAddr tok.address q
  · exact ⟨[], by rw [if_pos h, List.append_nil], by simp⟩
  · refine ⟨_, by rw [if_neg h], ?_⟩
    intro t ht
    rw [List.mem_singleton.mp ht]
    exact ⟨rfl, rfl⟩

theorem hasAddr_enqueue_self (tok : TokRef) (now : ℤ) (q : List QTask) :
    hasAddr tok.address (enqueue tok now q) = true := by
  rw [enqueue]
  by_cases h : hasAddr tok.address q
  · rw [if_pos h]
    exact h
  · rw [if_neg h, hasAddr_append]
    simp [hasAddr]

theorem hasAddr_enqueue_mono (a : String) (tok : TokRef) (now : ℤ) (q : List QTask)
    (h : hasAddr a q = true) : hasAddr a (enqueue tok now q) = true := by
  rw [enqueue]
  by_cases hq : hasAddr tok.address q
  · rw [if_pos hq]
    exact h
  · rw [if_neg hq, hasAddr_append, h]
    rfl

theorem findA_append_absent (a : String) (r : List QTask) :
    ∀ q : List QTask, hasAddr a q = false → findA a (q ++ r) = findA a r := by
  intro q
  induction q with
  | nil => intro _; rfl
  | cons t ts ih =>
    intro h
    rw [hasAddr] at h
    by_cases ht : t.address = a
    · rw [if_pos ht] at h
      exact absurd h (by simp)
    · rw [if_neg ht] at h
      rw [List.cons_append, findA, if_neg ht]
      exact ih h

end BackfillQueue

open BackfillQueue in
/-- C5: `enqueue` is insert-if-absent.  For an instrument that already
has a queue entry (any status) the call leaves the whole queue — hence
that entry's attempts, status and every other field — unchanged; a second
enqueue of the same instrument is the identity, so the queue length is
unchanged and the entry's attempts remain 0 when it was freshly
inserted. -/
theorem enqueue_insert_if_absent (tok : TokRef) (now now2 : ℤ) (q : List QTask) :
    (hasAddr tok.address q = true → enqueue tok now q = q) ∧
    enqueue tok now2 (enqueue tok now q) = enqueue tok now q ∧
    (hasAddr tok.address q = false →
      (findA tok.address (enqueue tok now q)).map (·.attempts) = some 0 ∧
      (enqueue tok now q).length = q.length + 1) := by
  refine ⟨fun h => by rw [enqueue, if_pos h], ?_, ?_⟩
  · have h1 := hasAddr_enqueue_self tok now q
    conv_lhs => rw [enqueue]
    rw [if_pos h1]
  · intro h
    constructor
    · rw [enqueue, if_neg (by rw [h]; exact Bool.false_ne_true),
        findA_append_absent tok.address _ q h, findA, if_pos rfl]
      rfl
    · rw [enqueue, if_neg (by rw [h]; exact Bool.false_ne_true)]
      simp

open BackfillQueue in
/-- Witness for C5: double enqueue of a fresh instrument from the empty
queue. -/
theorem enqueue_insert_if_absent_witness :
    enqueue { address := "W" } 7 (enqueue { address := "W" } 3 []) =
      enqueue { address := "W" } 3 [] ∧
    (findA "W" (enqueue { address := "W" } 3 [])).map (·.attempts) = some 0 :=
  ⟨(enqueue_insert_if_absent { address := "W" } 3 7 []).2.1,
   ((enqueue_insert_if_absent { address := "W" } 3 7 []).2.2 rfl).1⟩

namespace BackfillQueue

/-- A task that already exhausted its retries. -/
def failedT : QTask :=
  { address := "T", symbol := "TT", name := "", poolAddress := none,
    status := .failed, attempts := 5, lastAttempt := some 650000, enqueuedAt := 0,
    error := some "Exhausted 5 attempts", completedAt := none }

/-- A registry token with address `"T"`. -/
def tokenT : TokenDoc := { address := "T" }

end BackfillQueue

open BackfillQueue in
/-- Counterexample to C4: token `"T"` has zero persisted candles and an
existing `failed` queue entry with `attempts = 5`; `auditAndEnqueueMissing`
leaves the queue — and that entry — completely unchanged, so the entry is
not re-enqueued with fresh priority (`status=pending`, `attempts=0`). -/
theorem audit_counterexample :
    auditAndEnqueueMissing [tokenT] [] 100 [failedT] = [failedT] ∧
    (findA "T" (auditAndEnqueueMissing [tokenT] [] 100 [failedT])).map
      (fun t => (t.status, t.attempts)) = some (QStatus.failed, 5) ∧
    ¬(failedT.status = .pending ∧ failedT.attempts = 0) := by
  decide

namespace BackfillQueue

theorem audit_preserves_hasAddr (a : String) :
    ∀ (tokens : List TokenDoc) (store : List Storage.CandleDoc) (now : ℤ)
      (q : List QTask), hasAddr a q = true →
      hasAddr a (auditAndEnqueueMissing tokens store now q) = true := by
  intro tokens
  induction tokens with
  | nil => exact fun _ _ _ h => h
  | cons tok toks ih =>
    intro store now q h
    rw [auditAndEnqueueMissing, List.foldl_cons]
    by_cases hc : Storage.countFor tok.address store = 0
    · rw [if_pos hc]
      exact ih store now _ (hasAddr_enqueue_mono a _ now q h)
    · rw [if_neg hc]
      exact ih store now q h

end BackfillQueue

open BackfillQueue in
/-- C4 (amended): after `auditAndEnqueueMissing`, every instrument with
zero persisted candles has a backfill-queue entry; entries the audit
creates are fresh (`status=pending`, `attempts=0`), while pre-existing
entries — including those with prior attempts or `status=failed` — are
left unchanged (the audit only ever appends to the queue). -/
theorem audit_enqueues_missing (tokens : List TokenDoc)
    (store : List Storage.CandleDoc) (now : ℤ) (q : List QTask) :
    (∃ rest, auditAndEnqueueMissing tokens store now q = q ++ rest ∧
      ∀ t ∈ rest, t.status = .pending ∧ t.attempts = 0) ∧
    (∀ tok ∈ tokens, Storage.countFor tok.address store = 0 →
      hasAddr tok.address (auditAndEnqueueMissing tokens store now q) = true) := by
  induction tokens generalizing q with
  | nil =>
    refine ⟨⟨[], by simp [auditAndEnqueueMissing], by simp⟩, ?_⟩
    intro tok htok
    exact absurd htok (by simp)
  | cons tok toks ih =>
    have hstep : ∃ r1, (if Storage.countFor tok.address store = 0 then
        enqueue { address := tok.address, symbol := tok.symbol, name := tok.name,
                  poolAddress := tok.poolAddress } now q else q) = q ++ r1 ∧
        ∀ t ∈ r1, t.status = .pending ∧ t.attempts = 0 := by
      by_cases hc : Storage.countFor tok.address store = 0
      · rw [if_pos hc]
        exact enqueue_append _ now q
      · exact ⟨[], by rw [if_neg hc, List.append_nil], by simp⟩
    obtain ⟨r1, hr1, hr1p⟩ := hstep
    have hfold : auditAndEnqueueMissing (tok :: toks) store now q =
        auditAndEnqueueMissing toks store now (q ++ r1) := by
      rw [auditAndEnqueueMissing, List.foldl_cons, hr1]
      rfl
    obtain ⟨⟨rest, hrest, hrestp⟩, hmissing⟩ := ih (q ++ r1)
    constructor
    · refine ⟨r1 ++ rest, ?_, ?_⟩
      · rw [hfold, hrest, List.append_assoc]
      · intro t ht
        rcases List.mem_append.mp ht with ht | ht
        · exact hr1p t ht
        · exact hrestp t ht
    · intro tok' htok' hcnt
      rcases List.mem_cons.mp htok' with rfl | htok'
      · rw [hfold]
        have hbase : hasAddr tok'.address (q ++ r1) = true := by
          rw [← hr1, if_pos hcnt]
          exact hasAddr_enqueue_self
            { address := tok'.address, symbol := tok'.symbol, name := tok'.name,
              poolAddress := tok'.poolAddress } now q
        exact audit_preserves_hasAddr tok'.address toks store now (q ++ r1) hbase
      · rw [hfold]
        exact hmissing tok' htok' hcnt

open BackfillQueue in
/-- Witness for C4 (amended): the audit enqueues a missing token starting
from the empty queue. -/
theorem audit_enqueues_missing_witness :
    hasAddr "T" (auditAndEnqueueMissing [tokenT] [] 100 []) = true :=
  (audit_enqueues_missing [tokenT] [] 100 []).2 tokenT (by decide) rfl

namespace Storage

theorem hasKey_append (a : String) (ts : ℤ) (r : List CandleDoc) :
    ∀ s : List CandleDoc, hasKey a ts (s ++ r) = (hasKey a ts s || hasKey a ts r) := by
  intro s
  induction s with
  | nil => simp [hasKey]
  | cons d ds ih =>
    by_cases hd : d.tokenAddress = a ∧ d.timestamp = ts
    · simp [hasKey, hd]
    · simp only [List.cons_append, hasKey, if_neg hd]
      exact ih

theorem hasKey_mono (a : String) (ts : ℤ) (s r : List CandleDoc)
    (h : hasKey a ts s = true) : hasKey a ts (s ++ r) = true := by
  rw [hasKey_append, h]
  rfl

theorem insertOne_append (d : CandleDoc) (s : List CandleDoc) :
    ∃ r, insertOne d s = s ++ r ∧ ∀ x ∈ r, x = d := by
  rw [insertOne]
  by_cases h : hasKey d.tokenAddress d.timestamp s
  · exact ⟨[], by rw [if_pos h, List.append_nil], by simp⟩
  · exact ⟨[d], by rw [if_neg h], by simp⟩

theorem hasKey_insertOne_self (d : CandleDoc) (s : List CandleDoc) :
    hasKey d.tokenAddress d.timestamp (insertOne d s) = true := by
  rw [insertOne]
  by_cases h : hasKey d.tokenAddress d.timestamp s
  · rw [if_pos h]
    exact h
  · rw [if_neg h, hasKey_append]
    simp [hasKey]

theorem fold_insert_append (docs : List CandleDoc) :
    ∀ s : List CandleDoc, ∃ r,
      docs.foldl (fun acc d => insertOne d acc) s = s ++ r ∧ ∀ x ∈ r, x ∈ docs := by
  induction docs with
  | nil => exact fun s => ⟨[], by simp, by simp⟩
  | cons d ds ih =>
    intro s
    obtain ⟨r1, hr1, hr1m⟩ := insertOne_append d s
    obtain ⟨r2, hr2, hr2m⟩ := ih (s ++ r1)
    refine ⟨r1 ++ r2, ?_, ?_⟩
    · rw [List.foldl_cons, hr1, hr2, List.append_assoc]
    · intro x hx
      rcases List.mem_append.mp hx with hx | hx
      · rw [hr1m x hx]
        exact List.mem_cons_self d ds
      · exact List.mem_cons_of_mem d (hr2m x hx)

theorem fold_insert_hasKey_mono (docs : List CandleDoc) (a : String) (ts : ℤ)
    (s : List CandleDoc) (h : hasKey a ts s = true) :
    hasKey a ts (docs.foldl (fun acc d => insertOne d acc) s) = true := by
  obtain ⟨r, hr, _⟩ := fold_insert_append docs s
  rw [hr]
  exact hasKey_mono a ts s r h

theorem fold_insert_keys (docs : List CandleDoc) :
    ∀ s : List CandleDoc, ∀ d ∈ docs,
      hasKey d.tokenAddress d.timestamp (docs.foldl (fun acc x => insertOne x acc) s)
        = true := by
  induction docs with
  | nil => intro s d hd; exact absurd hd (by simp)
  | cons d0 ds ih =>
    intro s d hd
    rw [List.foldl_cons]
    rcases List.mem_cons.mp hd with rfl | hd
    · exact fold_insert_hasKey_mono ds d.tokenAddress d.timestamp _
        (hasKey_insertOne_self d s)
    · exact ih (insertOne d0 s) d hd

theorem fold_insert_noop (docs : List CandleDoc) :
    ∀ s : List CandleDoc, (∀ d ∈ docs, hasKey d.tokenAddress d.timestamp s = true) →
      docs.foldl (fun acc d => insertOne d acc) s = s := by
  induction docs with
  | nil => exact fun s _ => rfl
  | cons d ds ih =>
    intro s h
    rw [List.foldl_cons, insertOne, if_pos (h d (List.mem_cons_self d ds))]
    exact ih s (fun x hx => h x (List.mem_cons_of_mem d hx))

theorem backfillCandles_append (a : String) (p : Option String) (candles : List GCandle)
    (s : List CandleDoc) :
    ∃ r, backfillCandles a p candles s = s ++ r ∧ ∀ x ∈ r, x.tokenAddress = a := by
  rw [backfillCandles]
  by_cases hc : candles.isEmpty
  · exact ⟨[], by rw [if_pos hc, List.append_nil], by simp⟩
  · rw [if_neg hc, ← List.foldl_map (backfillDoc a p) (fun acc d => insertOne d acc)]
    obtain ⟨r, hr, hrm⟩ := fold_insert_append (candles.map (backfillDoc a p)) s
    refine ⟨r, hr, ?_⟩
    intro x hx
    obtain ⟨c, _, rfl⟩ := List.mem_map.mp (hrm x hx)
    rfl

theorem backfillCandles_keys (a : String) (p : Option String) (candles : List GCandle)
    (s : List CandleDoc) :
    ∀ c ∈ candles, hasKey a c.timestamp (backfillCandles a p candles s) = true := by
  intro c hc
  rw [backfillCandles, if_neg (by
    intro he
    rw [List.isEmpty_iff.mp he] at hc
    exact absurd hc (by simp))]
  rw [← List.foldl_map (backfillDoc a p) (fun acc d => insertOne d acc)]
  exact fold_insert_keys (candles.map (backfillDoc a p)) s (backfillDoc a p c)
    (List.mem_map_of_mem _ hc)

theorem backfillCandles_noop (a : String) (p : Option String) (candles : List GCandle)
    (s : List CandleDoc) (h : ∀ c ∈ candles, hasKey a c.timestamp s = true) :
    backfillCandles a p candles s = s := by
  rw [backfillCandles]
  by_cases hc : candles.isEmpty
  · rw [if_pos hc]
  · rw [if_neg hc, ← List.foldl_map (backfillDoc a p) (fun acc d => insertOne d acc)]
    refine fold_insert_noop (candles.map (backfillDoc a p)) s ?_
    intro d hd
    obtain ⟨c, hcm, rfl⟩ := List.mem_map.mp hd
    exact h c hcm

theorem getLatest_append_other (a : String) (s r : List CandleDoc)
    (hr : ∀ x ∈ r, x.tokenAddress ≠ a) :
    getLatestCandleTime a (s ++ r) = getLatestCandleTime a s := by
  rw [getLatestCandleTime, getLatestCandleTime, List.filter_append,
    show r.filter (fun d => decide (d.tokenAddress = a)) = [] from
      List.filter_eq_nil_iff.mpr (fun x hx => by simpa using hr x hx),
    List.append_nil]

theorem getLatest_some_append (a : String) (s r : List CandleDoc) (L : ℤ)
    (h : getLatestCandleTime a s = some L) :
    ∃ L2, getLatestCandleTime a (s ++ r) = some L2 := by
  rw [getLatestCandleTime] at h ⊢
  rw [List.filter_append, List.map_append]
  cases hf : (s.filter (fun d => decide (d.tokenAddress = a))).map (·.timestamp) with
  | nil =>
    rw [hf] at h
    exact absurd h (by simp [List.max?])
  | cons x xs =>
    exact ⟨_, rfl⟩

end Storage

namespace BackfillQueue

/-- 1 minute — a gap smaller than this is fine. -/
def GAP_THRESHOLD_MS : ℤ := 60 * 1000

/-- Per-token body of the `gapFillOnStartup` loop: skip tokens with no
candles at all (the audit handles those) or with a gap under the
threshold; otherwise fetch from gecko and persist (idempotent overlap
write).  A token-level fetch error is caught and skipped — same shape as
the empty-fetch branch. -/
def gapFillStep (fetch : String → List GCandle) (now : ℤ)
    (s : List Storage.CandleDoc) (tok : TokenDoc) : List Storage.CandleDoc :=
  match Storage.getLatestCandleTime tok.address s with
  | none => s
  | some latest =>
    if now - latest < GAP_THRESHOLD_MS then s
    else
      match tok.poolAddress with
      | none => s
      | some pool =>
        let candles := fetch pool
        if candles.isEmpty then s
        else Storage.backfillCandles tok.address (some pool) candles s

/-- `gapFillOnStartup()`: run the gap check over every active token with a
known pool reference (`Token.find({ isActive: true, poolAddress: { $ne:
null } })`). -/
def gapFillOnStartup (tokens : List TokenDoc) (fetch : String → List GCandle)
    (now : ℤ) (s : List Storage.CandleDoc) : List Storage.CandleDoc :=
  (tokens.filter (fun t => t.isActive && t.poolAddress.isSome)).foldl
    (gapFillStep fetch now) s

theorem gapFillStep_append (fetch : String → List GCandle) (now : ℤ)
    (s : List Storage.CandleDoc) (tok : TokenDoc) :
    ∃ r, gapFillStep fetch now s tok = s ++ r ∧
      ∀ x ∈ r, x.tokenAddress = tok.address := by
  cases hl : Storage.getLatestCandleTime tok.address s with
  | none => exact ⟨[], by simp [gapFillStep, hl], by simp⟩
  | some latest =>
    by_cases hgap : now - latest < GAP_THRESHOLD_MS
    · exact ⟨[], by simp [gapFillStep, hl, hgap], by simp⟩
    · cases hp : tok.poolAddress with
      | none => exact ⟨[], by simp [gapFillStep, hl, hgap, hp], by simp⟩
      | some pool =>
        by_cases hf : (fetch pool).isEmpty
        · exact ⟨[], by simp [gapFillStep, hl, hgap, hp, hf], by simp⟩
        · have hs1 : gapFillStep fetch now s tok =
              Storage.backfillCandles tok.address (some pool) (fetch pool) s := by
            simp [gapFillStep, hl, hgap, hp, hf]
          rw [hs1]
          exact Storage.backfillCandles_append tok.address (some pool) (fetch pool) s

theorem gapFill_fold_append (fetch : String → List GCandle) (now : ℤ) :
    ∀ (toks : List TokenDoc) (s : List Storage.CandleDoc),
      ∃ r, toks.foldl (gapFillStep fetch now) s = s ++ r ∧
        ∀ x ∈ r, ∃ tok ∈ toks, x.tokenAddress = tok.address := by
  intro toks
  induction toks with
  | nil => exact fun s => ⟨[], by simp, by simp⟩
  | cons tok toks ih =>
    intro s
    obtain ⟨r1, hr1, hr1m⟩ := gapFillStep_append fetch now s tok
    obtain ⟨r2, hr2, hr2m⟩ := ih (s ++ r1)
    refine ⟨r1 ++ r2, ?_, ?_⟩
    · rw [List.foldl_cons, hr1, hr2, List.append_assoc]
    · intro x hx
      rcases List.mem_append.mp hx with hx | hx
      · exact ⟨tok, List.mem_cons_self tok toks, hr1m x hx⟩
      · obtain ⟨t2, ht2, he⟩ := hr2m x hx
        exact ⟨t2, List.mem_cons_of_mem tok ht2, he⟩

/-- Re-running the per-token gap fill on a store whose additions since the
first run touch only other addresses is a no-op. -/
theorem gapFillStep_again (fetch : String → List GCandle) (now : ℤ)
    (s r : List Storage.CandleDoc) (tok : TokenDoc)
    (hr : ∀ x ∈ r, x.tokenAddress ≠ tok.address) :
    gapFillStep fetch now (gapFillStep fetch now s tok ++ r) tok =
      gapFillStep fetch now s tok ++ r := by
  have hother := Storage.getLatest_append_other tok.address s r hr
  cases hl : Storage.getLatestCandleTime tok.address s with
  | none =>
    have hs1 : gapFillStep fetch now s tok = s := by simp [gapFillStep, hl]
    rw [hs1]
    simp [gapFillStep, hother, hl]
  | some latest =>
    by_cases hgap : now - latest < GAP_THRESHOLD_MS
    · have hs1 : gapFillStep fetch now s tok = s := by simp [gapFillStep, hl, hgap]
      rw [hs1]
      simp [gapFillStep, hother, hl, hgap]
    · cases hp : tok.poolAddress with
      | none =>
        have hs1 : gapFillStep fetch now s tok = s := by simp [gapFillStep, hl, hgap, hp]
        rw [hs1]
        simp [gapFillStep, hother, hl, hgap, hp]
      | some pool =>
        by_cases hf : (fetch pool).isEmpty
        · have hs1 : gapFillStep fetch now s tok = s := by
            simp [gapFillStep, hl, hgap, hp, hf]
          rw [hs1]
          simp [gapFillStep, hother, hl, hgap, hp, hf]
        · have hs1 : gapFillStep fetch now s tok =
              Storage.backfillCandles tok.address (some pool) (fetch pool) s := by
            simp [gapFillStep, hl, hgap, hp, hf]
          rw [hs1]
          obtain ⟨rb, hrb, _⟩ :=
            Storage.backfillCandles_append tok.address (some pool) (fetch pool) s
          obtain ⟨L2, hL2⟩ :=
            Storage.getLatest_some_append tok.address s (rb ++ r) latest hl
          have hL2' : Storage.getLatestCandleTime tok.address
              (Storage.backfillCandles tok.address (some pool) (fetch pool) s ++ r)
              = some L2 := by
            rw [hrb, List.append_assoc]
            exact hL2
          have hkeys : ∀ c ∈ fetch pool, Storage.hasKey tok.address c.timestamp
              (Storage.backfillCandles tok.address (some pool) (fetch pool) s ++ r)
              = true := by
            intro c hc
            exact Storage.hasKey_mono tok.address c.timestamp _ r
              (Storage.backfillCandles_keys tok.address (some pool) (fetch pool) s c hc)
          by_cases hgap2 : now - L2 < GAP_THRESHOLD_MS
          · simp [gapFillStep, hL2', hgap2]
          · simp only [gapFillStep, hL2', if_neg hgap2, hp]
            rw [if_neg hf]
            exact Storage.backfillCandles_noop tok.address (some pool) (fetch pool) _ hkeys

end BackfillQueue

namespace BackfillQueue

theorem gapFill_fold_idem (fetch : String → List GCandle) (now : ℤ) :
    ∀ (toks : List TokenDoc) (s : List Storage.CandleDoc),
      ((toks.map (·.address)).Nodup) →
      toks.foldl (gapFillStep fetch now) (toks.foldl (gapFillStep fetch now) s) =
        toks.foldl (gapFillStep fetch now) s := by
  intro toks
  induction toks with
  | nil => exact fun s _ => rfl
  | cons tok ts ih =>
    intro s hnd
    rw [List.map_cons, List.nodup_cons] at hnd
    rw [List.foldl_cons, List.foldl_cons]
    obtain ⟨r2, hr2, hr2m⟩ := gapFill_fold_append fetch now ts (gapFillStep fetch now s tok)
    have hstep : gapFillStep fetch now
        (ts.foldl (gapFillStep fetch now) (gapFillStep fetch now s tok)) tok =
        ts.foldl (gapFillStep fetch now) (gapFillStep fetch now s tok) := by
      rw [hr2]
      refine gapFillStep_again fetch now s r2 tok ?_
      intro x hx
      obtain ⟨t2, ht2, he⟩ := hr2m x hx
      rw [he]
      intro hcontra
      exact hnd.1 (hcontra ▸ List.mem_map_of_mem (·.address) ht2)
    rw [hstep]
    exact ih (gapFillStep fetch now s tok) hnd.2

end BackfillQueue

open BackfillQueue Storage in
/-- C6: a candle write whose `(tokenAddress, timestamp)` key already
exists is a no-op treated as success (both the single `saveCandle` insert
and the `insertMany` of a backfill); consequently `gapFillOnStartup` run
twice in immediate succession — same clock, same upstream responses —
leaves the persisted store, and hence the candle count, unchanged on the
second run. -/
theorem duplicate_write_noop_gapfill_idem :
    (∀ (d : CandleDoc) (s : List CandleDoc),
      hasKey d.tokenAddress d.timestamp s = true → insertOne d s = s) ∧
    (∀ (a : String) (p : Option String) (candles : List GCandle) (s : List CandleDoc),
      (∀ c ∈ candles, hasKey a c.timestamp s = true) →
      backfillCandles a p candles s = s) ∧
    (∀ (tokens : List TokenDoc) (fetch : String → List GCandle) (now : ℤ)
      (s : List CandleDoc), (tokens.map (·.address)).Nodup →
      gapFillOnStartup tokens fetch now (gapFillOnStartup tokens fetch now s) =
        gapFillOnStartup tokens fetch now s) := by
  refine ⟨fun d s h => by rw [insertOne, if_pos h], backfillCandles_noop, ?_⟩
  intro tokens fetch now s hnd
  simp only [gapFillOnStartup]
  refine gapFill_fold_idem fetch now _ s ?_
  have hsub : List.Sublist (tokens.filter (fun t => t.isActive && t.poolAddress.isSome))
      tokens := List.filter_sublist tokens
  exact (hsub.map (·.address)).nodup hnd

namespace BackfillQueue

/-- A persisted candle for the witness scenario. -/
def demoDoc : Storage.CandleDoc :=
  { tokenAddress := "G", poolAddress := some "P", timestamp := 0,
    open_ := 1, high := 1, low := 1, close := 1, volume := 0 }

/-- An active registry token with a known pool for the witness scenario. -/
def gtok : TokenDoc := { address := "G", poolAddress := some "P" }

/-- Deterministic upstream fetch for the witness scenario. -/
def gfetch : String → List GCandle :=
  fun _ => [{ timestamp := 50000, open_ := 1, high := 1, low := 1, close := 1, volume := 0 }]

end BackfillQueue

open BackfillQueue Storage in
/-- Witness for C6: a duplicate single write is dropped, and a concrete
double gap-fill run changes nothing the second time. -/
theorem duplicate_write_noop_gapfill_idem_witness :
    insertOne demoDoc [demoDoc] = [demoDoc] ∧
    gapFillOnStartup [gtok] gfetch 100000 (gapFillOnStartup [gtok] gfetch 100000 [demoDoc])
      = gapFillOnStartup [gtok] gfetch 100000 [demoDoc] :=
  ⟨duplicate_write_noop_gapfill_idem.1 demoDoc [demoDoc] (by decide),
   duplicate_write_noop_gapfill_idem.2.2 [gtok] gfetch 100000 [demoDoc] (by decide)⟩

namespace Discovery

/-- Cap on the dedup set, to avoid unbounded memory growth. -/
def MAX_SEEN : ℕ := 5000

/-- A discovery-source token (`{address, symbol, name, createdAt}`); the
address may be missing (`t.address` falsy), addresses are opaque ids. -/
structure DiscToken (α : Type) where
  address : Option α
  symbol : Option String := none
  name : Option String := none
  createdAt : Option ℤ := none

/-- The cap check at the start of each discovery cycle: when the seen-set
size exceeds `MAX_SEEN` the entire set is cleared — not LRU-evicted. -/
def postClear [DecidableEq α] (seen : Finset α) : Finset α :=
  if MAX_SEEN < seen.card then ∅ else seen

/-- One cycle of `discoveryLoop()` as it acts on `seenAddresses`: clear on
cap overflow, early-return when the batch, the not-yet-seen subset or the
processable subset is empty, mark below-market-cap tokens as seen while
filtering, and mark every processed token as seen in the main loop.  The
registry/queue effects of the loop body live in the other components'
models. -/
def discoveryStep [DecidableEq α] (seen : Finset α) (tokens : List (DiscToken α))
    (isActive : α → Bool) (mc : α → Option ℚ) : Finset α :=
  let seen0 := postClear seen
  if tokens.isEmpty then seen0
  else
    let addresses := tokens.filterMap (·.address)
    let notSeenYet := addresses.filter (fun a => decide (a ∉ seen0))
    if notSeenYet.isEmpty then seen0
    else
      let processTokens := tokens.filter (fun t =>
        match t.address with
        | none => false
        | some a => !(decide (a ∈ seen0)) && !(isActive a))
      if processTokens.isEmpty then seen0
      else
        let skipped := processTokens.filterMap (fun t => t.address.bind (fun a =>
          match mc a with
          | some m => if m < 2000 then some a else none
          | none => none))
        let liveAddrs := processTokens.filterMap (fun t => t.address.bind (fun a =>
          match mc a with
          | some m => if m < 2000 then none else some a
          | none => some a))
        if liveAddrs.isEmpty then seen0 ∪ skipped.toFinset
        else seen0 ∪ skipped.toFinset ∪ liveAddrs.toFinset

theorem postClear_card_le [DecidableEq α] (seen : Finset α) :
    (postClear seen).card ≤ MAX_SEEN := by
  rw [postClear]
  by_cases h : MAX_SEEN < seen.card
  · rw [if_pos h]
    simp
  · rw [if_neg h]
    exact Nat.le_of_not_lt h

theorem discoveryStep_subset [DecidableEq α] (seen : Finset α)
    (tokens : List (DiscToken α)) (isActive : α → Bool) (mc : α → Option ℚ) :
    discoveryStep seen tokens isActive mc ⊆
      postClear seen ∪ (tokens.filterMap (·.address)).toFinset := by
  rw [discoveryStep]
  dsimp only
  split
  · exact Finset.subset_union_left
  split
  · exact Finset.subset_union_left
  split
  · exact Finset.subset_union_left
  have hsk : ∀ a ∈ (tokens.filter (fun t =>
      match t.address with
      | none => false
      | some a => !(decide (a ∈ postClear seen)) && !(isActive a))).filterMap
        (fun t => t.address.bind (fun a =>
          match mc a with
          | some m => if m < 2000 then some a else none
          | none => none)),
      a ∈ (tokens.filterMap (·.address)).toFinset := by
    intro a ha
    obtain ⟨t, ht, hf⟩ := List.mem_filterMap.mp ha
    rw [List.mem_toFinset]
    refine List.mem_filterMap.mpr ⟨t, (List.filter_sublist tokens).mem ht, ?_⟩
    cases haddr : t.address with
    | none => simp [haddr] at hf
    | some b =>
      cases hmc : mc b with
      | none => simp [haddr, hmc] at hf
      | some m =>
        by_cases hlt : m < 2000
        · simp only [haddr, Option.some_bind, hmc, if_pos hlt] at hf
          simpa [haddr] using hf
        · simp only [haddr, Option.some_bind, hmc, if_neg hlt] at hf
          exact absurd hf (by simp)
  have hlv : ∀ a ∈ (tokens.filter (fun t =>
      match t.address with
      | none => false
      | some a => !(decide (a ∈ postClear seen)) && !(isActive a))).filterMap
        (fun t => t.address.bind (fun a =>
          match mc a with
          | some m => if m < 2000 then none else some a
          | none => some a)),
      a ∈ (tokens.filterMap (·.address)).toFinset := by
    intro a ha
    obtain ⟨t, ht, hf⟩ := List.mem_filterMap.mp ha
    rw [List.mem_toFinset]
    refine List.mem_filterMap.mpr ⟨t, (List.filter_sublist tokens).mem ht, ?_⟩
    cases haddr : t.address with
    | none => simp [haddr] at hf
    | some b =>
      cases hmc : mc b with
      | none =>
        simp only [haddr, Option.some_bind, hmc] at hf
        simpa [haddr] using hf
      | some m =>
        by_cases hlt : m < 2000
        · simp only [haddr, Option.some_bind, hmc, if_pos hlt] at hf
          exact absurd hf (by simp)
        · simp only [haddr, Option.some_bind, hmc, if_neg hlt] at hf
          simpa [haddr] using hf
  split
  · intro a ha
    rcases Finset.mem_union.mp ha with ha | ha
    · exact Finset.mem_union_left _ ha
    · exact Finset.mem_union_right _ (hsk a (List.mem_toFinset.mp ha))
  · intro a ha
    rcases Finset.mem_union.mp ha with ha | ha
    · rcases Finset.mem_union.mp ha with ha | ha
      · exact Finset.mem_union_left _ ha
      · exact Finset.mem_union_right _ (hsk a (List.mem_toFinset.mp ha))
    · exact Finset.mem_union_right _ (hlv a (List.mem_toFinset.mp ha))

end Discovery

open Discovery in
/-- C7: the dedup gate's seen-set is cleared entirely, never LRU-evicted,
by the check at the start of each discovery cycle — when the cycle starts
over the cap the resulting set can only contain addresses of the fresh
batch — and after any cycle the set's size is at most the cap plus the
size of the discovery batch. -/
theorem dedup_gate_cap_bound :
    (∀ (α : Type) [DecidableEq α] (seen : Finset α) (tokens : List (DiscToken α))
      (isActive : α → Bool) (mc : α → Option ℚ),
      (discoveryStep seen tokens isActive mc).card ≤ MAX_SEEN + tokens.length) ∧
    (∀ (α : Type) [DecidableEq α] (seen : Finset α) (tokens : List (DiscToken α))
      (isActive : α → Bool) (mc : α → Option ℚ), MAX_SEEN < seen.card →
      discoveryStep seen tokens isActive mc ⊆ (tokens.filterMap (·.address)).toFinset) := by
  constructor
  · intro α _ seen tokens isActive mc
    calc (discoveryStep seen tokens isActive mc).card
        ≤ (postClear seen ∪ (tokens.filterMap (·.address)).toFinset).card :=
          Finset.card_le_card (discoveryStep_subset seen tokens isActive mc)
      _ ≤ (postClear seen).card + (tokens.filterMap (·.address)).toFinset.card :=
          Finset.card_union_le _ _
      _ ≤ MAX_SEEN + tokens.length :=
          Nat.add_le_add (postClear_card_le seen)
            (le_trans (tokens.filterMap (·.address)).toFinset_card_le
              (List.length_filterMap_le _ _))
  · intro α _ seen tokens isActive mc hcap
    have h0 : postClear seen = ∅ := by rw [postClear, if_pos hcap]
    have hsub := discoveryStep_subset seen tokens isActive mc
    rw [h0] at hsub
    simpa using hsub

open Discovery in
/-- Witness for C7: a seen-set of 5001 ids is over the cap, so a cycle
with a one-token batch clears it and leaves at most the batch address. -/
theorem dedup_gate_cap_bound_witness :
    (discoveryStep (Finset.range 5001) [(⟨some 1, none, none, none⟩ : DiscToken ℕ)]
      (fun _ => false) (fun _ => none)).card ≤ MAX_SEEN + 1 ∧
    discoveryStep (Finset.range 5001) [(⟨some 1, none, none, none⟩ : DiscToken ℕ)]
      (fun _ => false) (fun _ => none) ⊆
      ([(⟨some 1, none, none, none⟩ : DiscToken ℕ)].filterMap (·.address)).toFinset :=
  ⟨dedup_gate_cap_bound.1 ℕ (Finset.range 5001) _ _ _,
   dedup_gate_cap_bound.2 ℕ (Finset.range 5001) _ _ _
     (by norm_num [MAX_SEEN, Finset.card_range])⟩
